import Mathlib

/-!
# Verification of the GetBlunted overlap-resolution pipeline

A shallow embedding of the core of the GetBlunted codebase
(`OverlapMap.cpp`, `Bluntifier.cpp`, `NodeInfo.cpp`, `BicliqueCover.cpp`)
together with theorems settling the specification claims about it.

External collaborators that are not part of this repository's core
(libhandlegraph handles, the CIGAR `Alignment` class, the `BipartiteGraph`
block container) are modelled from the specification's data-model section:
an oriented node handle is a pair (node-id, reversed?), an alignment is
summarised by the pair of overlap lengths its CIGAR induces on the two
sides of an edge.
-/

namespace GetBlunted

/-- An oriented node handle: a pair (node-id, reversed?).  `flip` inverts the
orientation (libhandlegraph `handle_t`, modelled from the spec's data model). -/
structure Handle where
  nodeId : Nat
  rev : Bool
deriving DecidableEq, Repr

/-- `graph.flip(h)` inverts the orientation of a handle. -/
def Handle.flip (h : Handle) : Handle := ⟨h.nodeId, !h.rev⟩

/-- An edge of the bidirected graph: an ordered pair of oriented handles
(libhandlegraph `edge_t`). -/
abbrev Edge := Handle × Handle

/-- Modelled from the spec: the `Alignment` (CIGAR) class is not under src;
the core only consumes its derived quantity
`lengths(e) = (len_on_u_side, len_on_v_side)` computed from the CIGAR, so an
alignment is modelled by that pair of lengths. -/
structure Alignment where
  lengthFirst : Nat
  lengthSecond : Nat
deriving DecidableEq, Repr

/-- `Alignment::compute_lengths`: the overlap length consumed on each side of
the edge. -/
def Alignment.compute_lengths (a : Alignment) : Nat × Nat :=
  (a.lengthFirst, a.lengthSecond)

/-- `OverlapMap`: a mapping from edge to the CIGAR describing the aligned
overlap (`unordered_map<edge_t, Alignment> overlaps`), modelled as an
association list keyed by `edge_t`. -/
structure OverlapMap where
  entries : List (Edge × Alignment)
deriving DecidableEq, Repr

/-- `OverlapMap::at` / `overlaps.find(edge)`: exact-key lookup returning the
stored entry (key and alignment), or none past-the-end. -/
def OverlapMap.at (m : OverlapMap) (e : Edge) : Option (Edge × Alignment) :=
  m.entries.find? (fun kv => kv.1 = e)

/-- The error raised by `OverlapMap::canonicalize_and_find` when neither
orientation of an edge is stored (`runtime_error("ERROR: edge not found in
overlaps: ...")`, naming the edge). -/
inductive OverlapErr where
  | notFound (e : Edge)
deriving DecidableEq, Repr

/-- The flipped orientation of an edge used by `canonicalize_and_find`:
`(flip(edge.second), flip(edge.first))`. -/
def Edge.swapFlip (e : Edge) : Edge := (e.2.flip, e.1.flip)

/-- `OverlapMap::canonicalize_and_find(edge, graph)`.  The C++ method takes
`edge` by mutable reference and returns an iterator; the embedding returns the
(unmodified) map, the final value of the `edge` argument, and either the found
entry or the thrown error.  It first looks the edge up in its provided
orientation; if not found it flips the edge in place
(`edge.first = flip(edge.second); edge.second = flip(edge.first)`) and looks
again; if it still is not found it throws, naming the (flipped) edge. -/
def OverlapMap.canonicalize_and_find (m : OverlapMap) (e : Edge) :
    OverlapMap × Edge × Except OverlapErr (Edge × Alignment) :=
  match m.at e with
  | some kv => (m, e, .ok kv)
  | none =>
    match m.at e.swapFlip with
    | some kv => (m, e.swapFlip, .ok kv)
    | none => (m, e.swapFlip, .error (.notFound e.swapFlip))

/-- Convenience projection: just the lookup result of
`canonicalize_and_find`. -/
def OverlapMap.canon (m : OverlapMap) (e : Edge) :
    Except OverlapErr (Edge × Alignment) :=
  (m.canonicalize_and_find e).2.2

/-- Membership of an edge as a key of the overlap map. -/
def OverlapMap.hasKey (m : OverlapMap) (e : Edge) : Prop :=
  e ∈ m.entries.map Prod.fst

instance (m : OverlapMap) (e : Edge) : Decidable (m.hasKey e) := by
  unfold OverlapMap.hasKey; infer_instance

lemma OverlapMap.at_isSome_iff (m : OverlapMap) (e : Edge) :
    (m.at e).isSome ↔ m.hasKey e := by
  unfold OverlapMap.at OverlapMap.hasKey
  rw [List.find?_isSome, List.mem_map]
  constructor
  · rintro ⟨kv, hmem, hkey⟩
    exact ⟨kv, hmem, by simpa using hkey⟩
  · rintro ⟨kv, hmem, hkey⟩
    exact ⟨kv, hmem, by simpa using hkey⟩

lemma OverlapMap.at_key (m : OverlapMap) (e : Edge) {kv : Edge × Alignment}
    (h : m.at e = some kv) : kv.1 = e := by
  unfold OverlapMap.at at h
  have := List.find?_some h
  simpa using this

lemma OverlapMap.at_mem (m : OverlapMap) (e : Edge) {kv : Edge × Alignment}
    (h : m.at e = some kv) : kv ∈ m.entries :=
  List.mem_of_find?_eq_some h

lemma OverlapMap.at_hasKey (m : OverlapMap) (e : Edge) {kv : Edge × Alignment}
    (h : m.at e = some kv) : m.hasKey e := by
  have := m.at_isSome_iff e
  rw [← this, h]
  rfl

lemma OverlapMap.hasKey_at (m : OverlapMap) (e : Edge) (h : m.hasKey e) :
    ∃ kv, m.at e = some kv := by
  rw [← OverlapMap.at_isSome_iff] at h
  exact Option.isSome_iff_exists.mp h

lemma canonicalize_and_find_of_at_some {m : OverlapMap} {e : Edge}
    {kv : Edge × Alignment} (h : m.at e = some kv) :
    m.canonicalize_and_find e = (m, e, .ok kv) := by
  unfold OverlapMap.canonicalize_and_find; rw [h]

lemma canonicalize_and_find_of_flip_some {m : OverlapMap} {e : Edge}
    {kv : Edge × Alignment} (h1 : m.at e = none) (h2 : m.at e.swapFlip = some kv) :
    m.canonicalize_and_find e = (m, e.swapFlip, .ok kv) := by
  unfold OverlapMap.canonicalize_and_find; rw [h1, h2]

lemma canonicalize_and_find_of_none {m : OverlapMap} {e : Edge}
    (h1 : m.at e = none) (h2 : m.at e.swapFlip = none) :
    m.canonicalize_and_find e =
      (m, e.swapFlip, .error (.notFound e.swapFlip)) := by
  unfold OverlapMap.canonicalize_and_find; rw [h1, h2]

lemma OverlapMap.at_none_iff (m : OverlapMap) (e : Edge) :
    m.at e = none ↔ ¬ m.hasKey e := by
  rw [← at_isSome_iff, Option.not_isSome_iff_eq_none]

/-- C5: `canonicalize_and_find` succeeds, returning a stored entry whose key is
the provided edge or its flipped form `(flip(v), flip(u))`, exactly when one of
the two orientations is a key of the map; and it fails with `NotFound` (naming
the flipped edge) exactly when neither orientation is stored. -/
theorem canonicalize_and_find_found_or_notFound (m : OverlapMap) (e : Edge) :
    ((∃ kv, (m.canonicalize_and_find e).2.2 = .ok kv ∧ kv ∈ m.entries ∧
        (kv.1 = e ∨ kv.1 = e.swapFlip)) ↔ (m.hasKey e ∨ m.hasKey e.swapFlip)) ∧
    ((m.canonicalize_and_find e).2.2 = .error (.notFound e.swapFlip) ↔
        (¬ m.hasKey e ∧ ¬ m.hasKey e.swapFlip)) := by
  rcases h1 : m.at e with _ | kv1
  · rcases h2 : m.at e.swapFlip with _ | kv2
    · rw [canonicalize_and_find_of_none h1 h2]
      rw [OverlapMap.at_none_iff] at h1 h2
      constructor
      · constructor
        · rintro ⟨kv, hkv, -⟩; exact absurd hkv (by simp)
        · rintro (hk | hk)
          · exact absurd hk h1
          · exact absurd hk h2
      · constructor
        · intro _; exact ⟨h1, h2⟩
        · intro _; rfl
    · rw [canonicalize_and_find_of_flip_some h1 h2]
      constructor
      · constructor
        · intro _; exact Or.inr (m.at_hasKey e.swapFlip h2)
        · intro _
          exact ⟨kv2, rfl, m.at_mem e.swapFlip h2, Or.inr (m.at_key e.swapFlip h2)⟩
      · constructor
        · intro h; exact absurd h (by simp)
        · rintro ⟨-, hk⟩; exact absurd (m.at_hasKey e.swapFlip h2) hk
  · rw [canonicalize_and_find_of_at_some h1]
    constructor
    · constructor
      · intro _; exact Or.inl (m.at_hasKey e h1)
      · intro _; exact ⟨kv1, rfl, m.at_mem e h1, Or.inl (m.at_key e h1)⟩
    · constructor
      · intro h; exact absurd h (by simp)
      · rintro ⟨hk, -⟩; exact absurd (m.at_hasKey e h1) hk

/-- C8: canonicalisation is idempotent.  If `canonicalize_and_find` maps an
edge `e` (stored in some orientation of the map, in any state `m`) to the
stored canonical entry `(k, a)`, then applying it again to the returned edge
`k` yields the same entry: `canon(canon(e)) = canon(e)`. -/
theorem canonicalize_and_find_idempotent (m : OverlapMap) (e k : Edge)
    (a : Alignment) (h : m.canon e = .ok (k, a)) : m.canon k = .ok (k, a) := by
  unfold OverlapMap.canon at h ⊢
  rcases h1 : m.at e with _ | kv1
  · rcases h2 : m.at e.swapFlip with _ | kv2
    · rw [canonicalize_and_find_of_none h1 h2] at h; exact absurd h (by simp)
    · rw [canonicalize_and_find_of_flip_some h1 h2] at h
      simp only [Except.ok.injEq] at h
      have hk : k = e.swapFlip := by
        have := m.at_key e.swapFlip h2; rw [h] at this; exact this
      have hat : m.at k = some (k, a) := by rw [hk, h2, h, ← hk]
      rw [canonicalize_and_find_of_at_some hat]
  · rw [canonicalize_and_find_of_at_some h1] at h
    simp only [Except.ok.injEq] at h
    have hk : k = e := by
      have := m.at_key e h1; rw [h] at this; exact this
    have hat : m.at k = some (k, a) := by rw [hk, h1, h, ← hk]
    rw [canonicalize_and_find_of_at_some hat]

/-- Witness for C8 at a concrete overlap map and edge. -/
theorem canonicalize_and_find_idempotent_witness :
    (OverlapMap.mk [((⟨1, false⟩, ⟨2, false⟩), ⟨3, 3⟩)]).canon
        (⟨2, true⟩, ⟨1, true⟩) = .ok ((⟨1, false⟩, ⟨2, false⟩), ⟨3, 3⟩) ∧
    (OverlapMap.mk [((⟨1, false⟩, ⟨2, false⟩), ⟨3, 3⟩)]).canon
        (⟨1, false⟩, ⟨2, false⟩) = .ok ((⟨1, false⟩, ⟨2, false⟩), ⟨3, 3⟩) :=
  ⟨by rfl,
   canonicalize_and_find_idempotent _ (⟨2, true⟩, ⟨1, true⟩) _ _ (by rfl)⟩

/-- C9: `canonicalize_and_find` never modifies the overlap map; on success the
final value of its (by-reference) edge argument is exactly the stored key it
returns, and the argument is left at its original value precisely when the
first-orientation lookup already succeeded; on the `NotFound` path the argument
is left in the flipped orientation. -/
theorem canonicalize_and_find_frame (m : OverlapMap) (e : Edge) :
    (m.canonicalize_and_find e).1 = m ∧
    (∀ k a, (m.canonicalize_and_find e).2.2 = .ok (k, a) →
      (m.canonicalize_and_find e).2.1 = k ∧
      ((m.canonicalize_and_find e).2.1 = e ↔ (m.at e).isSome)) ∧
    (∀ err, (m.canonicalize_and_find e).2.2 = .error err →
      (m.canonicalize_and_find e).2.1 = e.swapFlip) := by
  rcases h1 : m.at e with _ | kv1
  · rcases h2 : m.at e.swapFlip with _ | kv2
    · rw [canonicalize_and_find_of_none h1 h2]
      refine ⟨rfl, ?_, ?_⟩
      · intro k a h; exact absurd h (by simp)
      · intro err _; rfl
    · rw [canonicalize_and_find_of_flip_some h1 h2]
      refine ⟨rfl, ?_, ?_⟩
      · intro k a h
        simp only [Except.ok.injEq] at h
        have hkey := m.at_key e.swapFlip h2
        rw [h] at hkey
        refine ⟨hkey.symm, ?_⟩
        constructor
        · intro hflip
          replace hflip : e.swapFlip = e := hflip
          rw [hflip] at h2
          rw [h1] at h2
          exact absurd h2 (by simp)
        · intro hsome
          exact absurd hsome (by simp)
      · intro err h; exact absurd h (by simp)
  · rw [canonicalize_and_find_of_at_some h1]
    refine ⟨rfl, ?_, ?_⟩
    · intro k a h
      simp only [Except.ok.injEq] at h
      have hkey := m.at_key e h1
      rw [h] at hkey
      exact ⟨hkey.symm, by simp⟩
    · intro err h; exact absurd h (by simp)

/-- Witness for C9 at a concrete overlap map and edge stored only in the
flipped orientation: the map is unchanged, the argument ends up equal to the
returned stored key, and it was rewritten (first lookup failed). -/
theorem canonicalize_and_find_frame_witness :
    ((OverlapMap.mk [((⟨1, false⟩, ⟨2, false⟩), ⟨3, 3⟩)]).canonicalize_and_find
        (⟨2, true⟩, ⟨1, true⟩)).1 = OverlapMap.mk [((⟨1, false⟩, ⟨2, false⟩), ⟨3, 3⟩)] ∧
    ((OverlapMap.mk [((⟨1, false⟩, ⟨2, false⟩), ⟨3, 3⟩)]).canonicalize_and_find
        (⟨2, true⟩, ⟨1, true⟩)).2.1 = (⟨1, false⟩, ⟨2, false⟩) := by
  have h := canonicalize_and_find_frame
    (OverlapMap.mk [((⟨1, false⟩, ⟨2, false⟩), ⟨3, 3⟩)]) (⟨2, true⟩, ⟨1, true⟩)
  exact ⟨h.1, (h.2.1 (⟨1, false⟩, ⟨2, false⟩) ⟨3, 3⟩ (by rfl)).1⟩

/-- Witness for C5-style success/failure at concrete inputs (the theorem is an
equivalence; this instantiates it at a stored and an unstored edge). -/
theorem canonicalize_and_find_found_or_notFound_witness :
    ((OverlapMap.mk [((⟨1, false⟩, ⟨2, false⟩), ⟨3, 3⟩)]).canonicalize_and_find
        (⟨5, false⟩, ⟨6, false⟩)).2.2 =
      .error (.notFound (Edge.swapFlip (⟨5, false⟩, ⟨6, false⟩))) := by
  have h := canonicalize_and_find_found_or_notFound
    (OverlapMap.mk [((⟨1, false⟩, ⟨2, false⟩), ⟨3, 3⟩)]) (⟨5, false⟩, ⟨6, false⟩)
  exact h.2.mpr (by decide)

/-! ## Bicliques and splice-site mapping (`Bluntifier::map_splice_sites_by_node`) -/

/-- The deduplicated biclique cover held by the `Bluntifier`
(`Bicliques::bicliques`, a vector of vectors of edges). -/
abbrev Bicliques := List (List Edge)

/-- `node_to_biclique_edge` is a table from node id to the list of
`(biclique index, intra-biclique edge index)` pairs, modelled as a total
function (the C++ vector is pre-sized to the node count). -/
abbrev NodeToBicliqueEdge := Nat → List (Nat × Nat)

/-- `node_to_biclique_edge[n].emplace_back(i, j)`. -/
def pushEntry (f : NodeToBicliqueEdge) (target : Nat) (v : Nat × Nat) :
    NodeToBicliqueEdge :=
  fun m => if m = target then f m ++ [v] else f m

/-- One iteration of the inner loop of `map_splice_sites_by_node`: record
`(i, j)` under the left endpoint's node id, and under the right endpoint's
node id only when it differs (no double mapping for self-loops). -/
def spliceStep (acc : NodeToBicliqueEdge) (i j : Nat) (e : Edge) :
    NodeToBicliqueEdge :=
  let acc1 := pushEntry acc e.1.nodeId (i, j)
  if e.2.nodeId ≠ e.1.nodeId then pushEntry acc1 e.2.nodeId (i, j) else acc1

/-- Inner loop over the edges of biclique `i`, with `j` counting up from
`j0`. -/
def spliceInner (i j0 : Nat) (es : List Edge) (acc : NodeToBicliqueEdge) :
    NodeToBicliqueEdge :=
  match es with
  | [] => acc
  | e :: rest => spliceInner i (j0 + 1) rest (spliceStep acc i j0 e)

/-- Outer loop over the bicliques, with `i` counting up from `i0`. -/
def spliceOuter (i0 : Nat) (bs : Bicliques) (acc : NodeToBicliqueEdge) :
    NodeToBicliqueEdge :=
  match bs with
  | [] => acc
  | bc :: rest => spliceOuter (i0 + 1) rest (spliceInner i0 0 bc acc)

/-- `Bluntifier::map_splice_sites_by_node`: builds `node_to_biclique_edge`
from the deduplicated biclique cover. -/
def map_splice_sites_by_node (bs : Bicliques) : NodeToBicliqueEdge :=
  spliceOuter 0 bs (fun _ => [])

/-- The entries the processing of one edge contributes at node id `n`. -/
def spliceContrib (i j : Nat) (e : Edge) (n : Nat) : List (Nat × Nat) :=
  (if n = e.1.nodeId then [(i, j)] else []) ++
    (if e.2.nodeId ≠ e.1.nodeId ∧ n = e.2.nodeId then [(i, j)] else [])

lemma spliceStep_apply (acc : NodeToBicliqueEdge) (i j : Nat) (e : Edge)
    (n : Nat) : spliceStep acc i j e n = acc n ++ spliceContrib i j e n := by
  unfold spliceStep spliceContrib pushEntry
  by_cases h2 : e.2.nodeId ≠ e.1.nodeId <;>
    by_cases hl : n = e.1.nodeId <;> by_cases hr : n = e.2.nodeId <;>
    simp_all

/-- The per-node entry list the inner loop denotes. -/
def spliceSpecInner (i j0 : Nat) (es : List Edge) (n : Nat) :
    List (Nat × Nat) :=
  match es with
  | [] => []
  | e :: rest => spliceContrib i j0 e n ++ spliceSpecInner i (j0 + 1) rest n

/-- The per-node entry list the outer loop denotes. -/
def spliceSpecOuter (i0 : Nat) (bs : Bicliques) (n : Nat) : List (Nat × Nat) :=
  match bs with
  | [] => []
  | bc :: rest => spliceSpecInner i0 0 bc n ++ spliceSpecOuter (i0 + 1) rest n

lemma spliceInner_apply (i : Nat) (es : List Edge) :
    ∀ (j0 : Nat) (acc : NodeToBicliqueEdge) (n : Nat),
      spliceInner i j0 es acc n = acc n ++ spliceSpecInner i j0 es n := by
  induction es with
  | nil => intro j0 acc n; simp [spliceInner, spliceSpecInner]
  | cons e rest ih =>
    intro j0 acc n
    rw [spliceInner, spliceSpecInner, ih, spliceStep_apply, List.append_assoc]

lemma spliceOuter_apply (bs : Bicliques) :
    ∀ (i0 : Nat) (acc : NodeToBicliqueEdge) (n : Nat),
      spliceOuter i0 bs acc n = acc n ++ spliceSpecOuter i0 bs n := by
  induction bs with
  | nil => intro i0 acc n; simp [spliceOuter, spliceSpecOuter]
  | cons bc rest ih =>
    intro i0 acc n
    rw [spliceOuter, spliceSpecOuter, ih, spliceInner_apply, List.append_assoc]

lemma mem_spliceContrib {i j : Nat} {e : Edge} {n : Nat} {p : Nat × Nat}
    (h : p ∈ spliceContrib i j e n) : p = (i, j) := by
  unfold spliceContrib at h
  rcases List.mem_append.mp h with h' | h' <;>
    [skip; skip] <;> split at h' <;> simp_all

lemma mem_spliceSpecInner {i : Nat} {es : List Edge} :
    ∀ {j0 : Nat} {n : Nat} {p : Nat × Nat}, p ∈ spliceSpecInner i j0 es n →
      p.1 = i ∧ j0 ≤ p.2 := by
  induction es with
  | nil => intro j0 n p h; simp [spliceSpecInner] at h
  | cons e rest ih =>
    intro j0 n p h
    rw [spliceSpecInner] at h
    rcases List.mem_append.mp h with h' | h'
    · rcases mem_spliceContrib h'
      exact ⟨rfl, le_refl _⟩
    · obtain ⟨h1, h2⟩ := ih h'
      exact ⟨h1, Nat.le_of_succ_le h2⟩

lemma mem_spliceSpecOuter {bs : Bicliques} :
    ∀ {i0 : Nat} {n : Nat} {p : Nat × Nat}, p ∈ spliceSpecOuter i0 bs n →
      i0 ≤ p.1 := by
  induction bs with
  | nil => intro i0 n p h; simp [spliceSpecOuter] at h
  | cons bc rest ih =>
    intro i0 n p h
    rw [spliceSpecOuter] at h
    rcases List.mem_append.mp h with h' | h'
    · exact (mem_spliceSpecInner h').1.ge.trans (le_refl _)
    · exact Nat.le_of_succ_le (ih h')

lemma count_spliceContrib (i j : Nat) (e : Edge) (n : Nat) :
    (spliceContrib i j e n).count (i, j) =
      if n = e.1.nodeId ∨ n = e.2.nodeId then 1 else 0 := by
  unfold spliceContrib
  by_cases h2 : e.2.nodeId = e.1.nodeId <;>
    by_cases hl : n = e.1.nodeId <;> by_cases hr : n = e.2.nodeId <;>
    simp_all

lemma count_spliceContrib_ne {i j : Nat} (e : Edge) (n : Nat) {p : Nat × Nat}
    (h : p ≠ (i, j)) : (spliceContrib i j e n).count p = 0 := by
  rw [List.count_eq_zero]
  intro hmem
  exact h (mem_spliceContrib hmem)

lemma count_spliceSpecInner (i : Nat) {es : List Edge} {e : Edge} :
    ∀ {j0 j : Nat}, j0 ≤ j → es.get? (j - j0) = some e → ∀ n,
      (spliceSpecInner i j0 es n).count (i, j) =
        if n = e.1.nodeId ∨ n = e.2.nodeId then 1 else 0 := by
  induction es with
  | nil => intro j0 j hj he n; simp at he
  | cons e0 rest ih =>
    intro j0 j hj he n
    rw [spliceSpecInner, List.count_append]
    by_cases hjj : j = j0
    · subst hjj
      rw [Nat.sub_self] at he
      simp only [List.get?_cons_zero, Option.some.injEq] at he
      subst he
      rw [count_spliceContrib]
      have hz : (spliceSpecInner i (j + 1) rest n).count (i, j) = 0 := by
        rw [List.count_eq_zero]
        intro hmem
        have := (mem_spliceSpecInner hmem).2
        omega
      omega
    · have hlt : j0 + 1 ≤ j := by omega
      have he' : rest.get? (j - (j0 + 1)) = some e := by
        have : j - j0 = (j - (j0 + 1)) + 1 := by omega
        rw [this] at he
        simpa using he
      rw [count_spliceContrib_ne e0 n (by simp [hjj]), ih hlt he']
      omega

lemma count_spliceSpecOuter (i j : Nat) {bs : Bicliques} {bc : List Edge}
    {e : Edge} :
    ∀ {i0 : Nat}, i0 ≤ i → bs.get? (i - i0) = some bc →
      bc.get? j = some e → ∀ n,
      (spliceSpecOuter i0 bs n).count (i, j) =
        if n = e.1.nodeId ∨ n = e.2.nodeId then 1 else 0 := by
  induction bs with
  | nil => intro i0 hi hb he n; simp at hb
  | cons bc0 rest ih =>
    intro i0 hi hb he n
    rw [spliceSpecOuter, List.count_append]
    by_cases hii : i = i0
    · subst hii
      rw [Nat.sub_self] at hb
      simp only [List.get?_cons_zero, Option.some.injEq] at hb
      subst hb
      have hz : (spliceSpecOuter (i + 1) rest n).count (i, j) = 0 := by
        rw [List.count_eq_zero]
        intro hmem
        have := mem_spliceSpecOuter hmem
        omega
      rw [hz, count_spliceSpecInner i (Nat.zero_le j) (by simpa using he)]
      omega
    · have hlt : i0 + 1 ≤ i := by omega
      have hb' : rest.get? (i - (i0 + 1)) = some bc := by
        have : i - i0 = (i - (i0 + 1)) + 1 := by omega
        rw [this] at hb
        simpa using hb
      have hz : (spliceSpecInner i0 0 bc0 n).count (i, j) = 0 := by
        rw [List.count_eq_zero]
        intro hmem
        exact hii (mem_spliceSpecInner hmem).1
      rw [hz, ih hlt hb' he]
      omega

/-- C10: `map_splice_sites_by_node` records, for every edge `j` of every
deduplicated biclique `i`, exactly one `(i, j)` entry in
`node_to_biclique_edge[n]` for each node id `n` that is an endpoint of the
edge — a single entry when the edge is a self-loop — and no entry at any
other node id. -/
theorem map_splice_sites_by_node_count (bs : Bicliques) (i j : Nat)
    (bc : List Edge) (e : Edge) (hb : bs.get? i = some bc)
    (he : bc.get? j = some e) (n : Nat) :
    ((map_splice_sites_by_node bs) n).count (i, j) =
      if n = e.1.nodeId ∨ n = e.2.nodeId then 1 else 0 := by
  unfold map_splice_sites_by_node
  rw [spliceOuter_apply]
  simp only [List.nil_append]
  exact count_spliceSpecOuter i j (Nat.zero_le i) (by simpa using hb) he n

/-- Witness for C10 on a concrete two-biclique cover containing a self-loop
edge: node 7's entry list contains `(0, 0)` once (self-loop on node 7),
node 1 receives `(1, 0)` once, and node 9 gets nothing. -/
theorem map_splice_sites_by_node_count_witness :
    ((map_splice_sites_by_node
        [[((⟨7, false⟩, ⟨7, true⟩))], [((⟨1, false⟩, ⟨2, false⟩))]]) 7).count
          (0, 0) = 1 ∧
    ((map_splice_sites_by_node
        [[((⟨7, false⟩, ⟨7, true⟩))], [((⟨1, false⟩, ⟨2, false⟩))]]) 1).count
          (1, 0) = 1 ∧
    ((map_splice_sites_by_node
        [[((⟨7, false⟩, ⟨7, true⟩))], [((⟨1, false⟩, ⟨2, false⟩))]]) 9).count
          (1, 0) = 0 := by
  refine ⟨?_, ?_, ?_⟩
  · rw [map_splice_sites_by_node_count
      [[((⟨7, false⟩, ⟨7, true⟩))], [((⟨1, false⟩, ⟨2, false⟩))]] 0 0
      [((⟨7, false⟩, ⟨7, true⟩))] ((⟨7, false⟩, ⟨7, true⟩)) (by rfl) (by rfl) 7]
    decide
  · rw [map_splice_sites_by_node_count
      [[((⟨7, false⟩, ⟨7, true⟩))], [((⟨1, false⟩, ⟨2, false⟩))]] 1 0
      [((⟨1, false⟩, ⟨2, false⟩))] ((⟨1, false⟩, ⟨2, false⟩)) (by rfl) (by rfl) 1]
    decide
  · rw [map_splice_sites_by_node_count
      [[((⟨7, false⟩, ⟨7, true⟩))], [((⟨1, false⟩, ⟨2, false⟩))]] 1 0
      [((⟨1, false⟩, ⟨2, false⟩))] ((⟨1, false⟩, ⟨2, false⟩)) (by rfl) (by rfl) 9]
    decide

/-! ## Biclique-cover deduplication
(`Bluntifier::deduplicate_and_canonicalize_biclique_cover`) -/

/-- A bipartition `(L, R)` of a biclique; the C++ `unordered_set`s are
modelled as lists fixing an iteration order (the claims proved below do not
depend on that order). -/
abbrev Bipartition := List Handle × List Handle

/-- `|L| * |R|`, the sort key of the deduplication pass. -/
def prodOf (b : Bipartition) : Nat := b.1.length * b.2.length

/-- The descending order on bicliques used by the sort: `std::sort` with
comparator `a.first.size()*a.second.size() > b.first.size()*b.second.size()`
produces some permutation ordered by `≥` on the products. -/
def coverGE (a b : Bipartition) : Prop := prodOf b ≤ prodOf a

instance : DecidableRel coverGE := fun a b => Nat.decLe _ _

instance : IsTotal Bipartition coverGE := ⟨fun a b => le_total (prodOf b) (prodOf a)⟩

instance : IsTrans Bipartition coverGE := ⟨fun _ _ _ h1 h2 => le_trans h2 h1⟩

/-- Processing of a single `(l, r)` pair: form the edge `(l, flip(r))`,
canonicalise it via the overlap map, and if the canonical edge has not been
processed before, mark it processed and append the found key to the current
biclique's deduplicated edge list. -/
def dedupPairStep (m : OverlapMap) (l r : Handle)
    (processed outCur : List Edge) : Except OverlapErr (List Edge × List Edge) :=
  let t := m.canonicalize_and_find (l, r.flip)
  match t.2.2 with
  | .error err => .error err
  | .ok kv =>
      if t.2.1 ∈ processed then .ok (processed, outCur)
      else .ok (processed ++ [t.2.1], outCur ++ [kv.1])

/-- Inner loop of the deduplication over the right side of a biclique. -/
def dedupInner (m : OverlapMap) (l : Handle) (rs : List Handle)
    (st : List Edge × List Edge) : Except OverlapErr (List Edge × List Edge) :=
  match rs with
  | [] => .ok st
  | r :: rest => do
      let st' ← dedupPairStep m l r st.1 st.2
      dedupInner m l rest st'

/-- Loop of the deduplication over the left side of a biclique. -/
def dedupLefts (m : OverlapMap) (ls rs : List Handle)
    (st : List Edge × List Edge) : Except OverlapErr (List Edge × List Edge) :=
  match ls with
  | [] => .ok st
  | l :: rest => do
      let st' ← dedupInner m l rs st
      dedupLefts m rest rs st'

/-- Loop of the deduplication over the (sorted) bicliques; each biclique
starts a fresh output edge list (`deduplicated_biclique_cover.emplace_back()`),
while the processed-edge set persists. -/
def dedupBicliques (m : OverlapMap) (covers : List Bipartition)
    (processed : List Edge) (acc : List (List Edge)) :
    Except OverlapErr (List (List Edge)) :=
  match covers with
  | [] => .ok acc
  | b :: rest => do
      let st' ← dedupLefts m b.1 b.2 (processed, [])
      dedupBicliques m rest st'.1 (acc ++ [st'.2])

/-- `Bluntifier::deduplicate_and_canonicalize_biclique_cover`: sort the cover
by `|L|*|R|` descending, then assign each canonical edge to the first biclique
(in that order) containing it. -/
def deduplicate_and_canonicalize_biclique_cover (m : OverlapMap)
    (cover : List Bipartition) : Except OverlapErr (List (List Edge)) :=
  dedupBicliques m (List.insertionSort coverGE cover) [] []

/-- The canonical key of the edge `(l, flip(r))` under the overlap map, when
the lookup succeeds. -/
def canonKey (m : OverlapMap) (l r : Handle) : Option Edge :=
  match (m.canonicalize_and_find (l, r.flip)).2.2 with
  | .ok kv => some kv.1
  | .error _ => none

/-- A biclique `(L, R)` contains the canonical edge `c` when some pair
`(l, r) ∈ L × R` canonicalises to it. -/
def bipContains (m : OverlapMap) (b : Bipartition) (c : Edge) : Prop :=
  ∃ l ∈ b.1, ∃ r ∈ b.2, canonKey m l r = some c

instance (m : OverlapMap) (b : Bipartition) (c : Edge) :
    Decidable (bipContains m b c) := by
  unfold bipContains; infer_instance

lemma canon_arg_eq_key {m : OverlapMap} {e : Edge} {kv : Edge × Alignment}
    (h : (m.canonicalize_and_find e).2.2 = .ok kv) :
    (m.canonicalize_and_find e).2.1 = kv.1 :=
  ((canonicalize_and_find_frame m e).2.1 kv.1 kv.2 h).1

lemma except_bind_ok {ε α β : Type} (a : α) (f : α → Except ε β) :
    (Except.ok a >>= f : Except ε β) = f a := rfl

lemma except_bind_error {ε α β : Type} (e : ε) (f : α → Except ε β) :
    (Except.error e >>= f : Except ε β) = Except.error e := rfl

lemma dedupPairStep_error {m : OverlapMap} {l r : Handle} {err : OverlapErr}
    (h : (m.canonicalize_and_find (l, r.flip)).2.2 = .error err)
    (p o : List Edge) : dedupPairStep m l r p o = .error err := by
  unfold dedupPairStep; dsimp only; rw [h]

lemma dedupPairStep_ok_mem {m : OverlapMap} {l r : Handle}
    {kv : Edge × Alignment}
    (h : (m.canonicalize_and_find (l, r.flip)).2.2 = .ok kv)
    {p : List Edge} (o : List Edge)
    (hmem : (m.canonicalize_and_find (l, r.flip)).2.1 ∈ p) :
    dedupPairStep m l r p o = .ok (p, o) := by
  unfold dedupPairStep; dsimp only; rw [h]; simp only [if_pos hmem]

lemma dedupPairStep_ok_new {m : OverlapMap} {l r : Handle}
    {kv : Edge × Alignment}
    (h : (m.canonicalize_and_find (l, r.flip)).2.2 = .ok kv)
    {p : List Edge} (o : List Edge)
    (hmem : (m.canonicalize_and_find (l, r.flip)).2.1 ∉ p) :
    dedupPairStep m l r p o =
      .ok (p ++ [(m.canonicalize_and_find (l, r.flip)).2.1], o ++ [kv.1]) := by
  unfold dedupPairStep; dsimp only; rw [h]; simp only [if_neg hmem]

lemma dedupInner_ok {m : OverlapMap} {l : Handle} :
    ∀ {rs : List Handle} {p o p' o' : List Edge},
      dedupInner m l rs (p, o) = .ok (p', o') →
      ∃ δ, p' = p ++ δ ∧ o' = o ++ δ ∧ δ.Nodup ∧ (∀ c ∈ δ, c ∉ p) ∧
        (∀ c, c ∈ δ ↔ (c ∉ p ∧ ∃ r ∈ rs, canonKey m l r = some c)) := by
  intro rs
  induction rs with
  | nil =>
    intro p o p' o' h
    rw [dedupInner] at h
    simp only [Except.ok.injEq, Prod.mk.injEq] at h
    exact ⟨[], by simp [h.1.symm], by simp [h.2.symm], List.nodup_nil,
      by simp, by simp⟩
  | cons r rest ih =>
    intro p o p' o' h
    rw [dedupInner] at h
    rcases ht : (m.canonicalize_and_find (l, r.flip)).2.2 with err | kv
    · rw [show ((p, o) : List Edge × List Edge).1 = p from rfl,
        show ((p, o) : List Edge × List Edge).2 = o from rfl,
        dedupPairStep_error ht p o, except_bind_error] at h
      exact absurd h (by simp)
    · have harg := canon_arg_eq_key ht
      have hkey : canonKey m l r = some kv.1 := by
        unfold canonKey; rw [ht]
      by_cases hmem : (m.canonicalize_and_find (l, r.flip)).2.1 ∈ p
      · rw [show ((p, o) : List Edge × List Edge).1 = p from rfl,
          show ((p, o) : List Edge × List Edge).2 = o from rfl,
          dedupPairStep_ok_mem ht o hmem, except_bind_ok] at h
        obtain ⟨δ, hp, ho, hnd, hdis, hiff⟩ := ih h
        refine ⟨δ, hp, ho, hnd, hdis, fun c => ?_⟩
        rw [hiff c]
        constructor
        · rintro ⟨hcp, r', hr', hk⟩
          exact ⟨hcp, r', List.mem_cons_of_mem _ hr', hk⟩
        · rintro ⟨hcp, r', hr', hk⟩
          rcases List.mem_cons.mp hr' with rfl | hr'
          · rw [hkey] at hk
            rw [harg] at hmem
            simp only [Option.some.injEq] at hk
            exact absurd (hk ▸ hmem) hcp
          · exact ⟨hcp, r', hr', hk⟩
      · rw [show ((p, o) : List Edge × List Edge).1 = p from rfl,
          show ((p, o) : List Edge × List Edge).2 = o from rfl,
          dedupPairStep_ok_new ht o hmem, except_bind_ok] at h
        rw [harg] at h hmem
        obtain ⟨δ, hp, ho, hnd, hdis, hiff⟩ := ih h
        refine ⟨kv.1 :: δ, by simpa using hp, by simpa using ho, ?_, ?_, ?_⟩
        · refine List.nodup_cons.mpr ⟨fun hc => ?_, hnd⟩
          exact hdis kv.1 hc (by simp)
        · intro c hc
          rcases List.mem_cons.mp hc with rfl | hc
          · exact hmem
          · intro hcp
            exact hdis c hc (by simp [hcp])
        · intro c
          constructor
          · intro hc
            rcases List.mem_cons.mp hc with rfl | hc
            · exact ⟨hmem, r, List.mem_cons_self _ _, hkey⟩
            · obtain ⟨hcp, r', hr', hk⟩ := (hiff c).mp hc
              exact ⟨fun hpp => hcp (by simp [hpp]), r',
                List.mem_cons_of_mem _ hr', hk⟩
          · rintro ⟨hcp, r', hr', hk⟩
            rcases List.mem_cons.mp hr' with rfl | hr'
            · rw [hkey] at hk
              simp only [Option.some.injEq] at hk
              simp [hk]
            · by_cases hcd : c = kv.1
              · simp [hcd]
              · refine List.mem_cons_of_mem _ ((hiff c).mpr ⟨?_, r', hr', hk⟩)
                simp only [List.mem_append, List.mem_singleton]
                rintro (hcp' | hcd')
                · exact hcp hcp'
                · exact hcd hcd'

lemma dedupLefts_ok {m : OverlapMap} {rs : List Handle} :
    ∀ {ls : List Handle} {p o p' o' : List Edge},
      dedupLefts m ls rs (p, o) = .ok (p', o') →
      ∃ δ, p' = p ++ δ ∧ o' = o ++ δ ∧ δ.Nodup ∧ (∀ c ∈ δ, c ∉ p) ∧
        (∀ c, c ∈ δ ↔
          (c ∉ p ∧ ∃ l ∈ ls, ∃ r ∈ rs, canonKey m l r = some c)) := by
  intro ls
  induction ls with
  | nil =>
    intro p o p' o' h
    rw [dedupLefts] at h
    simp only [Except.ok.injEq, Prod.mk.injEq] at h
    exact ⟨[], by simp [h.1.symm], by simp [h.2.symm], List.nodup_nil,
      by simp, by simp⟩
  | cons l rest ih =>
    intro p o p' o' h
    rw [dedupLefts] at h
    rcases hin : dedupInner m l rs (p, o) with err | st1
    · rw [hin, except_bind_error] at h
      exact absurd h (by simp)
    · rw [hin, except_bind_ok] at h
      obtain ⟨p1, o1⟩ := st1
      obtain ⟨δ1, hp1, ho1, hnd1, hdis1, hiff1⟩ := dedupInner_ok hin
      subst hp1; subst ho1
      obtain ⟨δ2, hp2, ho2, hnd2, hdis2, hiff2⟩ := ih h
      refine ⟨δ1 ++ δ2, by rw [hp2, List.append_assoc],
        by rw [ho2, List.append_assoc], ?_, ?_, ?_⟩
      · rw [List.nodup_append]
        exact ⟨hnd1, hnd2, fun c hc1 hc2 => hdis2 c hc2 (by simp [hc1])⟩
      · intro c hc
        rcases List.mem_append.mp hc with hc | hc
        · exact hdis1 c hc
        · intro hp
          exact hdis2 c hc (by simp [hp])
      · intro c
        constructor
        · intro hc
          rcases List.mem_append.mp hc with hc | hc
          · obtain ⟨hcp, r, hr, hk⟩ := (hiff1 c).mp hc
            exact ⟨hcp, l, List.mem_cons_self _ _, r, hr, hk⟩
          · obtain ⟨hcp, l', hl', r, hr, hk⟩ := (hiff2 c).mp hc
            exact ⟨fun hpp => hcp (by simp [hpp]), l',
              List.mem_cons_of_mem _ hl', r, hr, hk⟩
        · rintro ⟨hcp, l', hl', r, hr, hk⟩
          rcases List.mem_cons.mp hl' with rfl | hl'
          · exact List.mem_append.mpr
              (Or.inl ((hiff1 c).mpr ⟨hcp, r, hr, hk⟩))
          · by_cases hc1 : c ∈ δ1
            · exact List.mem_append.mpr (Or.inl hc1)
            · refine List.mem_append.mpr
                (Or.inr ((hiff2 c).mpr ⟨?_, l', hl', r, hr, hk⟩))
              simp only [List.mem_append]
              rintro (h1 | h2)
              · exact hcp h1
              · exact hc1 h2

lemma dedupBicliques_ok {m : OverlapMap} :
    ∀ {covers : List Bipartition} {p : List Edge} {acc out : List (List Edge)},
      dedupBicliques m covers p acc = .ok out →
      ∃ outNew, out = acc ++ outNew ∧ outNew.length = covers.length ∧
        outNew.flatten.Nodup ∧ (∀ c ∈ outNew.flatten, c ∉ p) ∧
        (∀ c, c ∈ outNew.flatten ↔
          (c ∉ p ∧ ∃ b ∈ covers, bipContains m b c)) ∧
        (∀ k bOut c, outNew.get? k = some bOut → c ∈ bOut →
          ∃ bSrc, covers.get? k = some bSrc ∧ bipContains m bSrc c ∧
            ∀ k' bSrc', k' < k → covers.get? k' = some bSrc' →
              ¬ bipContains m bSrc' c) := by
  intro covers
  induction covers with
  | nil =>
    intro p acc out h
    rw [dedupBicliques] at h
    simp only [Except.ok.injEq] at h
    refine ⟨[], by simp [h.symm], rfl, List.nodup_nil, by simp, by simp, ?_⟩
    intro k bOut c hk
    simp at hk
  | cons b rest ih =>
    intro p acc out h
    rw [dedupBicliques] at h
    rcases hlf : dedupLefts m b.1 b.2 (p, []) with err | st1
    · rw [hlf, except_bind_error] at h
      exact absurd h (by simp)
    · rw [hlf, except_bind_ok] at h
      obtain ⟨p1, oB⟩ := st1
      obtain ⟨δ, hp1, hoB, hndδ, hdisδ, hiffδ⟩ := dedupLefts_ok hlf
      rw [List.nil_append] at hoB
      subst hp1; subst hoB
      obtain ⟨outNew', hout, hlen, hnd', hdis', hiff', hidx'⟩ := ih h
      have hδiff : ∀ c, c ∈ oB ↔ (c ∉ p ∧ bipContains m b c) := by
        intro c; rw [hiffδ c]; rfl
      refine ⟨oB :: outNew', by simpa using hout, by simpa using hlen,
        ?_, ?_, ?_, ?_⟩
      · rw [List.flatten_cons, List.nodup_append]
        refine ⟨hndδ, hnd', fun c hc1 hc2 => ?_⟩
        exact hdis' c hc2 (by simp [hc1])
      · intro c hc
        rw [List.flatten_cons] at hc
        rcases List.mem_append.mp hc with hc | hc
        · exact hdisδ c hc
        · intro hp
          exact hdis' c hc (by simp [hp])
      · intro c
        rw [List.flatten_cons, List.mem_append]
        constructor
        · rintro (hc | hc)
          · obtain ⟨hcp, hcb⟩ := (hδiff c).mp hc
            exact ⟨hcp, b, List.mem_cons_self _ _, hcb⟩
          · obtain ⟨hcp, b', hb', hcb⟩ := (hiff' c).mp hc
            exact ⟨fun hpp => hcp (by simp [hpp]), b',
              List.mem_cons_of_mem _ hb', hcb⟩
        · rintro ⟨hcp, b', hb', hcb⟩
          rcases List.mem_cons.mp hb' with rfl | hb'
          · exact Or.inl ((hδiff c).mpr ⟨hcp, hcb⟩)
          · by_cases hcδ : c ∈ oB
            · exact Or.inl hcδ
            · refine Or.inr ((hiff' c).mpr ⟨?_, b', hb', hcb⟩)
              simp only [List.mem_append]
              rintro (h1 | h2)
              · exact hcp h1
              · exact hcδ h2
      · intro k bOut c hk hc
        match k with
        | 0 =>
          simp only [List.get?_cons_zero, Option.some.injEq] at hk
          subst hk
          refine ⟨b, rfl, ((hδiff c).mp hc).2, ?_⟩
          intro k' bSrc' hk' _
          omega
        | Nat.succ k'' =>
          simp only [List.get?_cons_succ] at hk
          obtain ⟨bSrc, hbs, hcont, hnone⟩ := hidx' k'' bOut c hk hc
          refine ⟨bSrc, by simpa using hbs, hcont, ?_⟩
          intro k' bSrc' hk'lt hk'
          match k' with
          | 0 =>
            simp only [List.get?_cons_zero, Option.some.injEq] at hk'
            subst hk'
            intro hcb
            have hcp : c ∉ p ++ oB := by
              have : c ∈ outNew'.flatten := List.mem_flatten.mpr
                ⟨bOut, List.get?_mem hk, hc⟩
              exact hdis' c this
            have : c ∈ oB := (hδiff c).mpr
              ⟨fun hq => hcp (by simp [hq]), hcb⟩
            exact hcp (by simp [this])
          | Nat.succ j =>
            simp only [List.get?_cons_succ] at hk'
            exact hnone j bSrc' (by omega) hk'

/-- C4: `deduplicate_and_canonicalize_biclique_cover` sorts the cover by
`|L|·|R|` descending and assigns each canonical edge `canon(l, flip(r))` to
the first biclique, in that order, containing it.  Consequently the output has
one edge list per input biclique, every canonical edge of the cover appears in
exactly one output list (the flattened output has no duplicates and covers
exactly the cover's canonical edges), and the biclique an edge lands in has
maximal `|L|·|R|` among the cover's bicliques containing that edge. -/
theorem deduplicate_and_canonicalize_cover_spec (m : OverlapMap)
    (cover : List Bipartition) (out : List (List Edge))
    (h : deduplicate_and_canonicalize_biclique_cover m cover = .ok out) :
    out.length = cover.length ∧
    out.flatten.Nodup ∧
    (∀ c, c ∈ out.flatten ↔ ∃ b ∈ cover, bipContains m b c) ∧
    (∀ k bOut c, out.get? k = some bOut → c ∈ bOut →
      ∃ bSrc, (List.insertionSort coverGE cover).get? k = some bSrc ∧
        bipContains m bSrc c ∧
        ∀ b' ∈ cover, bipContains m b' c → prodOf b' ≤ prodOf bSrc) := by
  unfold deduplicate_and_canonicalize_biclique_cover at h
  obtain ⟨outNew, hout, hlen, hnd, -, hiff, hidx⟩ := dedupBicliques_ok h
  rw [List.nil_append] at hout
  subst hout
  have hperm : (List.insertionSort coverGE cover).Perm cover :=
    List.perm_insertionSort coverGE cover
  have hsorted : List.Sorted coverGE (List.insertionSort coverGE cover) :=
    List.sorted_insertionSort coverGE cover
  refine ⟨by rw [hlen, hperm.length_eq], hnd, ?_, ?_⟩
  · intro c
    rw [hiff c]
    constructor
    · rintro ⟨-, b, hb, hcb⟩
      exact ⟨b, hperm.mem_iff.mp hb, hcb⟩
    · rintro ⟨b, hb, hcb⟩
      exact ⟨by simp, b, hperm.mem_iff.mpr hb, hcb⟩
  · intro k bOut c hk hc
    obtain ⟨bSrc, hbs, hcont, hnone⟩ := hidx k bOut c hk hc
    refine ⟨bSrc, hbs, hcont, ?_⟩
    intro b' hb' hcb'
    obtain ⟨k', hk'⟩ := List.mem_iff_get?.mp (hperm.mem_iff.mpr hb')
    by_cases hlt : k' < k
    · exact absurd hcb' (hnone k' b' hlt hk')
    · push_neg at hlt
      rcases Nat.eq_or_lt_of_le hlt with heq | hlt'
      · subst heq
        rw [hbs] at hk'
        simp only [Option.some.injEq] at hk'
        rw [hk']
      · have := List.pairwise_iff_get.mp hsorted
        have hkidx : k < (List.insertionSort coverGE cover).length :=
          (List.get?_eq_some.mp hbs).1
        have hk'idx : k' < (List.insertionSort coverGE cover).length :=
          (List.get?_eq_some.mp hk').1
        have hrel := this ⟨k, hkidx⟩ ⟨k', hk'idx⟩ hlt'
        have h1 : (List.insertionSort coverGE cover).get ⟨k, hkidx⟩ = bSrc := by
          have := List.get?_eq_get hkidx (l := List.insertionSort coverGE cover)
          rw [this] at hbs
          simpa using hbs
        have h2 : (List.insertionSort coverGE cover).get ⟨k', hk'idx⟩ = b' := by
          have := List.get?_eq_get hk'idx (l := List.insertionSort coverGE cover)
          rw [this] at hk'
          simpa using hk'
        rw [h1, h2] at hrel
        exact hrel

/-- Witness for C4: a concrete cover of two bicliques sharing the edge
`(1+, 2-)`; deduplication assigns both canonical edges to the larger biclique
and leaves the smaller one empty, with no duplicates overall. -/
theorem deduplicate_and_canonicalize_cover_spec_witness :
    deduplicate_and_canonicalize_biclique_cover
        (OverlapMap.mk [((⟨1, false⟩, ⟨2, true⟩), ⟨2, 2⟩),
                        ((⟨1, false⟩, ⟨3, true⟩), ⟨2, 2⟩)])
        [([⟨1, false⟩], [⟨2, false⟩]),
         ([⟨1, false⟩], [⟨2, false⟩, ⟨3, false⟩])] =
      .ok [[(⟨1, false⟩, ⟨2, true⟩), (⟨1, false⟩, ⟨3, true⟩)], []] ∧
    ([[(⟨1, false⟩, ⟨2, true⟩), (⟨1, false⟩, ⟨3, true⟩)],
      ([] : List Edge)]).flatten.Nodup :=
  ⟨by rfl,
   (deduplicate_and_canonicalize_cover_spec
      (OverlapMap.mk [((⟨1, false⟩, ⟨2, true⟩), ⟨2, 2⟩),
                      ((⟨1, false⟩, ⟨3, true⟩), ⟨2, 2⟩)])
      [([⟨1, false⟩], [⟨2, false⟩]),
       ([⟨1, false⟩], [⟨2, false⟩, ⟨3, false⟩])]
      [[(⟨1, false⟩, ⟨2, true⟩), (⟨1, false⟩, ⟨3, true⟩)], []]
      (by rfl)).2.1⟩

/-! ## Per-node factoring of overlaps
(`NodeInfo::factor_overlaps_by_biclique_and_side`,
`NodeInfo::sort_factored_overlaps`) -/

/-- `OverlapInfo(edge_index, length)`. -/
structure OverlapInfo where
  edge_index : Nat
  length : Nat
deriving DecidableEq, Repr

/-- One side of `factored_overlaps`: a `std::map<size_t, vector<OverlapInfo>>`
from biclique index to overlap infos, modelled as an association list whose
keys are kept in strictly ascending order (`std::map` iteration order). -/
abbrev FactoredSide := List (Nat × List OverlapInfo)

/-- `std::map` key order invariant. -/
def keysSorted (mp : FactoredSide) : Prop :=
  List.Pairwise (fun a b => a.1 < b.1) mp

/-- `factored_overlaps[side][key].emplace_back(v)`: append `v` to the vector
at `key`, default-constructing the entry if absent (keeping keys ordered). -/
def mapEmplaceBack (mp : FactoredSide) (key : Nat) (v : OverlapInfo) :
    FactoredSide :=
  match mp with
  | [] => [(key, [v])]
  | (k, vs) :: rest =>
      if key = k then (k, vs ++ [v]) :: rest
      else if key < k then (key, [v]) :: (k, vs) :: rest
      else (k, vs) :: mapEmplaceBack rest key v

/-- Lookup of the vector stored at a key (empty when absent). -/
def lookupF (mp : FactoredSide) (k : Nat) : List OverlapInfo :=
  match mp.find? (fun p => p.1 = k) with
  | some p => p.2
  | none => []

lemma mapEmplaceBack_key_mem {mp : FactoredSide} {key : Nat} {v : OverlapInfo} :
    ∀ p ∈ mapEmplaceBack mp key v, p.1 = key ∨ ∃ q ∈ mp, p.1 = q.1 := by
  induction mp with
  | nil => intro p hp; rw [mapEmplaceBack] at hp; simp at hp; simp [hp]
  | cons q rest ih =>
    obtain ⟨k, vs⟩ := q
    intro p hp
    rw [mapEmplaceBack] at hp
    by_cases h1 : key = k
    · rw [if_pos h1] at hp
      rcases List.mem_cons.mp hp with rfl | hp
      · exact Or.inr ⟨(k, vs), List.mem_cons_self _ _, rfl⟩
      · exact Or.inr ⟨p, List.mem_cons_of_mem _ hp, rfl⟩
    · rw [if_neg h1] at hp
      by_cases h2 : key < k
      · rw [if_pos h2] at hp
        rcases List.mem_cons.mp hp with rfl | hp
        · exact Or.inl rfl
        · exact Or.inr ⟨p, hp, rfl⟩
      · rw [if_neg h2] at hp
        rcases List.mem_cons.mp hp with rfl | hp
        · exact Or.inr ⟨(k, vs), List.mem_cons_self _ _, rfl⟩
        · rcases ih p hp with h | ⟨q, hq, hpq⟩
          · exact Or.inl h
          · exact Or.inr ⟨q, List.mem_cons_of_mem _ hq, hpq⟩

lemma lookupF_nil (k : Nat) : lookupF [] k = [] := rfl

lemma lookupF_cons_self (k : Nat) (vs : List OverlapInfo)
    (rest : FactoredSide) : lookupF ((k, vs) :: rest) k = vs := by
  unfold lookupF
  rw [List.find?_cons_of_pos _ (by simp)]

lemma lookupF_cons_ne {k k' : Nat} (h : k ≠ k') (vs : List OverlapInfo)
    (rest : FactoredSide) : lookupF ((k, vs) :: rest) k' = lookupF rest k' := by
  unfold lookupF
  rw [List.find?_cons_of_neg _ (by simp [h])]

lemma mapEmplaceBack_spec {mp : FactoredSide} (hks : keysSorted mp)
    (key : Nat) (v : OverlapInfo) :
    keysSorted (mapEmplaceBack mp key v) ∧
    ∀ k', lookupF (mapEmplaceBack mp key v) k' =
      if k' = key then lookupF mp k' ++ [v] else lookupF mp k' := by
  induction mp with
  | nil =>
    refine ⟨by simp [mapEmplaceBack, keysSorted], fun k' => ?_⟩
    rw [mapEmplaceBack]
    by_cases h : k' = key
    · subst h
      rw [if_pos rfl, lookupF_cons_self, lookupF_nil]
      rfl
    · rw [if_neg h, lookupF_cons_ne (fun hh => h hh.symm)]
  | cons q rest ih =>
    obtain ⟨k, vs⟩ := q
    have hks' : keysSorted rest := (List.pairwise_cons.mp hks).2
    have hklt : ∀ p ∈ rest, k < p.1 := fun p hp =>
      (List.pairwise_cons.mp hks).1 p hp
    obtain ⟨ihks, ihlook⟩ := ih hks'
    by_cases h1 : key = k
    · subst h1
      constructor
      · rw [mapEmplaceBack, if_pos rfl]
        exact List.pairwise_cons.mpr ⟨hklt, hks'⟩
      · intro k'
        rw [mapEmplaceBack, if_pos rfl]
        by_cases h : k' = key
        · subst h
          rw [if_pos rfl, lookupF_cons_self, lookupF_cons_self]
        · rw [if_neg h, lookupF_cons_ne (fun hh => h hh.symm),
            lookupF_cons_ne (fun hh => h hh.symm)]
    · by_cases h2 : key < k
      · constructor
        · rw [mapEmplaceBack, if_neg h1, if_pos h2]
          refine List.pairwise_cons.mpr ⟨?_, hks⟩
          intro p hp
          rcases List.mem_cons.mp hp with rfl | hp
          · exact h2
          · exact h2.trans (hklt p hp)
        · intro k'
          rw [mapEmplaceBack, if_neg h1, if_pos h2]
          by_cases h : k' = key
          · subst h
            rw [if_pos rfl, lookupF_cons_self]
            have hnone : lookupF ((k, vs) :: rest) k' = [] := by
              unfold lookupF
              rw [List.find?_eq_none.mpr]
              intro p hp
              rcases List.mem_cons.mp hp with rfl | hp
              · simp only [decide_eq_true_eq]
                omega
              · have := hklt p hp
                simp only [decide_eq_true_eq]
                omega
            rw [hnone]
            rfl
          · rw [if_neg h, lookupF_cons_ne (fun hh => h hh.symm)]
      · have h3 : k < key := by omega
        constructor
        · rw [mapEmplaceBack, if_neg h1, if_neg h2]
          refine List.pairwise_cons.mpr ⟨?_, ihks⟩
          intro p hp
          rcases mapEmplaceBack_key_mem p hp with hk | ⟨q, hq, hpq⟩
          · rw [hk]; exact h3
          · rw [hpq]; exact hklt q hq
        · intro k'
          rw [mapEmplaceBack, if_neg h1, if_neg h2]
          by_cases h : k' = k
          · subst h
            have hne : ¬ (k' = key) := by omega
            rw [if_neg hne, lookupF_cons_self, lookupF_cons_self]
          · have hne1 : k ≠ k' := fun hh => h hh.symm
            rw [lookupF_cons_ne hne1, lookupF_cons_ne hne1, ihlook k']

/-- Errors of the `NodeInfo` computation: an out-of-range biclique edge index
(`bicliques[index]`), a biclique edge missing from the overlap map
(dereferencing `overlaps.at(edge)` past the end), or — in the parent-aware
overload — a node on neither side of an edge
(`runtime_error("ERROR: parent node not found ...")`). -/
inductive NodeInfoErr where
  | badIndex (bi ei : Nat)
  | missingOverlap (e : Edge)
  | parentNotFound (nid : Nat) (e : Edge)
  | canonNotFound (e : Edge)
deriving DecidableEq, Repr

/-- `bicliques[index]`: the edge at `(biclique_index, edge_index)`. -/
def bicliquesGet (bs : Bicliques) (idx : Nat × Nat) : Option Edge :=
  (bs.get? idx.1).bind (fun bc => bc.get? idx.2)

/-- `NodeInfo::get_overlap_length(edge, side)`: look the edge up (plain `at`,
no canonicalisation), compute the CIGAR lengths and take the first component
for side 0, the second for side 1. -/
def get_overlap_length (m : OverlapMap) (e : Edge) (side : Bool) :
    Option Nat :=
  (m.at e).map (fun kv =>
    if side then kv.2.compute_lengths.2 else kv.2.compute_lengths.1)

/-- The pair `(factored_overlaps[0], factored_overlaps[1])`. -/
abbrev Factored := FactoredSide × FactoredSide

/-- Lookup in `factored_overlaps[side][biclique_index]` (side `false` is
side 0, `true` is side 1). -/
def sideLookup (st : Factored) (s : Bool) (bi : Nat) : List OverlapInfo :=
  lookupF (if s then st.2 else st.1) bi

/-- The left-endpoint branch of `factor_overlaps_by_biclique_and_side`: if the
node is on the left of the edge, the overlap happens on the node's right side
(side 1) when the handle is forward, else on its left side (side 0). -/
def factorLeftCheck (m : OverlapMap) (nid bi ei : Nat) (e : Edge)
    (st : Factored) : Except NodeInfoErr Factored :=
  if e.1.nodeId = nid then
    match get_overlap_length m e false with
    | none => .error (.missingOverlap e)
    | some len =>
        if e.1.rev = false then .ok (st.1, mapEmplaceBack st.2 bi ⟨ei, len⟩)
        else .ok (mapEmplaceBack st.1 bi ⟨ei, len⟩, st.2)
  else .ok st

/-- The right-endpoint branch: symmetric, a forward handle maps to the node's
left side (side 0). -/
def factorRightCheck (m : OverlapMap) (nid bi ei : Nat) (e : Edge)
    (st : Factored) : Except NodeInfoErr Factored :=
  if e.2.nodeId = nid then
    match get_overlap_length m e true with
    | none => .error (.missingOverlap e)
    | some len =>
        if e.2.rev = false then .ok (mapEmplaceBack st.1 bi ⟨ei, len⟩, st.2)
        else .ok (st.1, mapEmplaceBack st.2 bi ⟨ei, len⟩)
  else .ok st

/-- Processing of one `BicliqueEdgeIndex` of `node_to_biclique_edge[node_id]`
(the overload of `factor_overlaps_by_biclique_and_side` without a
child-to-parent map): fetch the stored biclique edge and run both endpoint
checks in order. -/
def factorStep (m : OverlapMap) (bs : Bicliques) (nid : Nat) (st : Factored)
    (idx : Nat × Nat) : Except NodeInfoErr Factored :=
  match bicliquesGet bs idx with
  | none => .error (.badIndex idx.1 idx.2)
  | some e => do
      let st1 ← factorLeftCheck m nid idx.1 idx.2 e st
      factorRightCheck m nid idx.1 idx.2 e st1

/-- The loop of `factor_overlaps_by_biclique_and_side` over
`node_to_biclique_edge[node_id]`. -/
def factorLoop (m : OverlapMap) (bs : Bicliques) (nid : Nat) :
    List (Nat × Nat) → Factored → Except NodeInfoErr Factored
  | [], st => .ok st
  | idx :: rest, st => do
      let st1 ← factorStep m bs nid st idx
      factorLoop m bs nid rest st1

/-- `NodeInfo::factor_overlaps_by_biclique_and_side()` (plain overload). -/
def factor_overlaps_by_biclique_and_side (m : OverlapMap) (bs : Bicliques)
    (n2be : NodeToBicliqueEdge) (nid : Nat) : Except NodeInfoErr Factored :=
  factorLoop m bs nid (n2be nid) ([], [])

/-- The descending order on overlap infos used by
`NodeInfo::sort_factored_overlaps` (`a.length > b.length` comparator). -/
def ovGE (a b : OverlapInfo) : Prop := b.length ≤ a.length

instance : DecidableRel ovGE := fun a b => Nat.decLe _ _

instance : IsTotal OverlapInfo ovGE := ⟨fun a b => le_total b.length a.length⟩

instance : IsTrans OverlapInfo ovGE := ⟨fun _ _ _ h1 h2 => le_trans h2 h1⟩

/-- Sorting of one side's per-biclique vectors by length descending. -/
def sortSide (mp : FactoredSide) : FactoredSide :=
  mp.map (fun p => (p.1, List.insertionSort ovGE p.2))

/-- `NodeInfo::sort_factored_overlaps()`. -/
def sort_factored_overlaps (st : Factored) : Factored :=
  (sortSide st.1, sortSide st.2)

/-- The per-node factored-overlap table as the `NodeInfo` constructor computes
it: factoring followed by sorting. -/
def NodeInfo.factored_overlaps (m : OverlapMap) (bs : Bicliques)
    (n2be : NodeToBicliqueEdge) (nid : Nat) : Except NodeInfoErr Factored :=
  (factor_overlaps_by_biclique_and_side m bs n2be nid).map
    sort_factored_overlaps

/-- The side-assignment rule: processing index `idx` contributes the overlap
info `ov` on side `s` exactly when the stored biclique edge has the node as an
endpoint, `ov` records that edge's index and the overlap length on the
endpoint's side, and `s` follows the orientation rule (left endpoint forward →
side 1, reversed → side 0; right endpoint forward → side 0, reversed →
side 1). -/
def FactorDerives (m : OverlapMap) (bs : Bicliques) (nid : Nat)
    (idx : Nat × Nat) (s : Bool) (ov : OverlapInfo) : Prop :=
  ∃ e, bicliquesGet bs idx = some e ∧ ov.edge_index = idx.2 ∧
    ((e.1.nodeId = nid ∧ get_overlap_length m e false = some ov.length ∧
        s = !e.1.rev) ∨
     (e.2.nodeId = nid ∧ get_overlap_length m e true = some ov.length ∧
        s = e.2.rev))

lemma sideLookup_true (st : Factored) (k : Nat) :
    sideLookup st true k = lookupF st.2 k := rfl

lemma sideLookup_false (st : Factored) (k : Nat) :
    sideLookup st false k = lookupF st.1 k := rfl

lemma sideLookup_pair_true (a b : FactoredSide) (k : Nat) :
    sideLookup (a, b) true k = lookupF b k := rfl

lemma sideLookup_pair_false (a b : FactoredSide) (k : Nat) :
    sideLookup (a, b) false k = lookupF a k := rfl

lemma factorLeftCheck_char {m : OverlapMap} {nid bi ei : Nat} {e : Edge}
    {st st1 : Factored} (hks : keysSorted st.1 ∧ keysSorted st.2)
    (h : factorLeftCheck m nid bi ei e st = .ok st1) :
    (keysSorted st1.1 ∧ keysSorted st1.2) ∧
    ∀ s k ov, ov ∈ sideLookup st1 s k ↔
      (ov ∈ sideLookup st s k ∨
        (k = bi ∧ e.1.nodeId = nid ∧ ov.edge_index = ei ∧
          get_overlap_length m e false = some ov.length ∧ s = !e.1.rev)) := by
  unfold factorLeftCheck at h
  by_cases hn : e.1.nodeId = nid
  · rw [if_pos hn] at h
    rcases hlen : get_overlap_length m e false with _ | len
    · rw [hlen] at h; dsimp only at h; exact absurd h (by simp)
    · rw [hlen] at h
      dsimp only at h
      by_cases hrev : e.1.rev = false
      · rw [if_pos hrev] at h
        simp only [Except.ok.injEq] at h
        subst h
        obtain ⟨hks2, hlook⟩ := mapEmplaceBack_spec hks.2 bi ⟨ei, len⟩
        refine ⟨⟨hks.1, hks2⟩, ?_⟩
        intro s k ov
        match s with
        | false =>
          rw [sideLookup_pair_false, sideLookup_false]
          constructor
          · exact Or.inl
          · rintro (hov | ⟨-, -, -, -, hs⟩)
            · exact hov
            · rw [hrev] at hs; exact absurd hs (by simp)
        | true =>
          rw [sideLookup_pair_true, sideLookup_true, hlook k]
          by_cases hk : k = bi
          · rw [if_pos hk]
            constructor
            · intro hov
              rcases List.mem_append.mp hov with hov | hov
              · exact Or.inl hov
              · simp only [List.mem_singleton] at hov
                subst hov
                exact Or.inr ⟨hk, hn, rfl, rfl, by rw [hrev]; rfl⟩
            · rintro (hov | ⟨-, -, hei, hlen2, -⟩)
              · exact List.mem_append.mpr (Or.inl hov)
              · refine List.mem_append.mpr (Or.inr ?_)
                simp only [Option.some.injEq] at hlen2
                have hov2 : ov = ⟨ei, len⟩ := by
                  cases ov
                  simp only [OverlapInfo.mk.injEq]
                  exact ⟨hei, hlen2.symm⟩
                simp [hov2]
          · rw [if_neg hk]
            constructor
            · exact Or.inl
            · rintro (hov | ⟨hk2, -⟩)
              · exact hov
              · exact absurd hk2 hk
      · rw [if_neg hrev] at h
        simp only [Except.ok.injEq] at h
        subst h
        obtain ⟨hks1, hlook⟩ := mapEmplaceBack_spec hks.1 bi ⟨ei, len⟩
        refine ⟨⟨hks1, hks.2⟩, ?_⟩
        intro s k ov
        have hrev2 : e.1.rev = true := by
          cases hb : e.1.rev
          · exact absurd hb hrev
          · rfl
        match s with
        | true =>
          rw [sideLookup_pair_true, sideLookup_true]
          constructor
          · exact Or.inl
          · rintro (hov | ⟨-, -, -, -, hs⟩)
            · exact hov
            · rw [hrev2] at hs; exact absurd hs (by simp)
        | false =>
          rw [sideLookup_pair_false, sideLookup_false, hlook k]
          by_cases hk : k = bi
          · rw [if_pos hk]
            constructor
            · intro hov
              rcases List.mem_append.mp hov with hov | hov
              · exact Or.inl hov
              · simp only [List.mem_singleton] at hov
                subst hov
                exact Or.inr ⟨hk, hn, rfl, rfl, by rw [hrev2]; rfl⟩
            · rintro (hov | ⟨-, -, hei, hlen2, -⟩)
              · exact List.mem_append.mpr (Or.inl hov)
              · refine List.mem_append.mpr (Or.inr ?_)
                simp only [Option.some.injEq] at hlen2
                have hov2 : ov = ⟨ei, len⟩ := by
                  cases ov
                  simp only [OverlapInfo.mk.injEq]
                  exact ⟨hei, hlen2.symm⟩
                simp [hov2]
          · rw [if_neg hk]
            constructor
            · exact Or.inl
            · rintro (hov | ⟨hk2, -⟩)
              · exact hov
              · exact absurd hk2 hk
  · rw [if_neg hn] at h
    simp only [Except.ok.injEq] at h
    subst h
    refine ⟨hks, ?_⟩
    intro s k ov
    constructor
    · exact Or.inl
    · rintro (hov | ⟨-, hn2, -⟩)
      · exact hov
      · exact absurd hn2 hn

lemma factorRightCheck_char {m : OverlapMap} {nid bi ei : Nat} {e : Edge}
    {st st1 : Factored} (hks : keysSorted st.1 ∧ keysSorted st.2)
    (h : factorRightCheck m nid bi ei e st = .ok st1) :
    (keysSorted st1.1 ∧ keysSorted st1.2) ∧
    ∀ s k ov, ov ∈ sideLookup st1 s k ↔
      (ov ∈ sideLookup st s k ∨
        (k = bi ∧ e.2.nodeId = nid ∧ ov.edge_index = ei ∧
          get_overlap_length m e true = some ov.length ∧ s = e.2.rev)) := by
  unfold factorRightCheck at h
  by_cases hn : e.2.nodeId = nid
  · rw [if_pos hn] at h
    rcases hlen : get_overlap_length m e true with _ | len
    · rw [hlen] at h; dsimp only at h; exact absurd h (by simp)
    · rw [hlen] at h
      dsimp only at h
      by_cases hrev : e.2.rev = false
      · rw [if_pos hrev] at h
        simp only [Except.ok.injEq] at h
        subst h
        obtain ⟨hks1, hlook⟩ := mapEmplaceBack_spec hks.1 bi ⟨ei, len⟩
        refine ⟨⟨hks1, hks.2⟩, ?_⟩
        intro s k ov
        match s with
        | true =>
          rw [sideLookup_pair_true, sideLookup_true]
          constructor
          · exact Or.inl
          · rintro (hov | ⟨-, -, -, -, hs⟩)
            · exact hov
            · rw [hrev] at hs; exact absurd hs (by simp)
        | false =>
          rw [sideLookup_pair_false, sideLookup_false, hlook k]
          by_cases hk : k = bi
          · rw [if_pos hk]
            constructor
            · intro hov
              rcases List.mem_append.mp hov with hov | hov
              · exact Or.inl hov
              · simp only [List.mem_singleton] at hov
                subst hov
                exact Or.inr ⟨hk, hn, rfl, rfl, by rw [hrev]⟩
            · rintro (hov | ⟨-, -, hei, hlen2, -⟩)
              · exact List.mem_append.mpr (Or.inl hov)
              · refine List.mem_append.mpr (Or.inr ?_)
                simp only [Option.some.injEq] at hlen2
                have hov2 : ov = ⟨ei, len⟩ := by
                  cases ov
                  simp only [OverlapInfo.mk.injEq]
                  exact ⟨hei, hlen2.symm⟩
                simp [hov2]
          · rw [if_neg hk]
            constructor
            · exact Or.inl
            · rintro (hov | ⟨hk2, -⟩)
              · exact hov
              · exact absurd hk2 hk
      · rw [if_neg hrev] at h
        simp only [Except.ok.injEq] at h
        subst h
        obtain ⟨hks2, hlook⟩ := mapEmplaceBack_spec hks.2 bi ⟨ei, len⟩
        refine ⟨⟨hks.1, hks2⟩, ?_⟩
        intro s k ov
        have hrev2 : e.2.rev = true := by
          cases hb : e.2.rev
          · exact absurd hb hrev
          · rfl
        match s with
        | false =>
          rw [sideLookup_pair_false, sideLookup_false]
          constructor
          · exact Or.inl
          · rintro (hov | ⟨-, -, -, -, hs⟩)
            · exact hov
            · rw [hrev2] at hs; exact absurd hs (by simp)
        | true =>
          rw [sideLookup_pair_true, sideLookup_true, hlook k]
          by_cases hk : k = bi
          · rw [if_pos hk]
            constructor
            · intro hov
              rcases List.mem_append.mp hov with hov | hov
              · exact Or.inl hov
              · simp only [List.mem_singleton] at hov
                subst hov
                exact Or.inr ⟨hk, hn, rfl, rfl, by rw [hrev2]⟩
            · rintro (hov | ⟨-, -, hei, hlen2, -⟩)
              · exact List.mem_append.mpr (Or.inl hov)
              · refine List.mem_append.mpr (Or.inr ?_)
                simp only [Option.some.injEq] at hlen2
                have hov2 : ov = ⟨ei, len⟩ := by
                  cases ov
                  simp only [OverlapInfo.mk.injEq]
                  exact ⟨hei, hlen2.symm⟩
                simp [hov2]
          · rw [if_neg hk]
            constructor
            · exact Or.inl
            · rintro (hov | ⟨hk2, -⟩)
              · exact hov
              · exact absurd hk2 hk
  · rw [if_neg hn] at h
    simp only [Except.ok.injEq] at h
    subst h
    refine ⟨hks, ?_⟩
    intro s k ov
    constructor
    · exact Or.inl
    · rintro (hov | ⟨-, hn2, -⟩)
      · exact hov
      · exact absurd hn2 hn

lemma factorStep_char {m : OverlapMap} {bs : Bicliques} {nid : Nat}
    {st st1 : Factored} {idx : Nat × Nat}
    (hks : keysSorted st.1 ∧ keysSorted st.2)
    (h : factorStep m bs nid st idx = .ok st1) :
    (keysSorted st1.1 ∧ keysSorted st1.2) ∧
    ∀ s k ov, ov ∈ sideLookup st1 s k ↔
      (ov ∈ sideLookup st s k ∨
        (k = idx.1 ∧ FactorDerives m bs nid idx s ov)) := by
  unfold factorStep at h
  rcases hbg : bicliquesGet bs idx with _ | e
  · rw [hbg] at h; exact absurd h (by simp)
  · rw [hbg] at h
    dsimp only at h
    rcases hlc : factorLeftCheck m nid idx.1 idx.2 e st with err | stA
    · rw [hlc, except_bind_error] at h
      exact absurd h (by simp)
    · rw [hlc, except_bind_ok] at h
      obtain ⟨hksA, hlookA⟩ := factorLeftCheck_char hks hlc
      obtain ⟨hks1, hlook1⟩ := factorRightCheck_char hksA h
      refine ⟨hks1, ?_⟩
      intro s k ov
      rw [hlook1 s k ov, hlookA s k ov]
      constructor
      · rintro ((hov | ⟨hk, hL⟩) | ⟨hk, hR⟩)
        · exact Or.inl hov
        · exact Or.inr ⟨hk, e, hbg, hL.2.1, Or.inl ⟨hL.1, hL.2.2.1, hL.2.2.2⟩⟩
        · exact Or.inr ⟨hk, e, hbg, hR.2.1, Or.inr ⟨hR.1, hR.2.2.1, hR.2.2.2⟩⟩
      · rintro (hov | ⟨hk, e', hbg', hei, hcase⟩)
        · exact Or.inl (Or.inl hov)
        · rw [hbg] at hbg'
          simp only [Option.some.injEq] at hbg'
          subst hbg'
          rcases hcase with ⟨h1, h2, h3⟩ | ⟨h1, h2, h3⟩
          · exact Or.inl (Or.inr ⟨hk, h1, hei, h2, h3⟩)
          · exact Or.inr ⟨hk, h1, hei, h2, h3⟩

lemma factorLoop_char {m : OverlapMap} {bs : Bicliques} {nid : Nat} :
    ∀ {idxs : List (Nat × Nat)} {st st1 : Factored},
      (keysSorted st.1 ∧ keysSorted st.2) →
      factorLoop m bs nid idxs st = .ok st1 →
      (keysSorted st1.1 ∧ keysSorted st1.2) ∧
      ∀ s k ov, ov ∈ sideLookup st1 s k ↔
        (ov ∈ sideLookup st s k ∨
          ∃ idx ∈ idxs, k = idx.1 ∧ FactorDerives m bs nid idx s ov) := by
  intro idxs
  induction idxs with
  | nil =>
    intro st st1 hks h
    rw [factorLoop] at h
    simp only [Except.ok.injEq] at h
    subst h
    refine ⟨hks, ?_⟩
    intro s k ov
    simp
  | cons idx rest ih =>
    intro st st1 hks h
    rw [factorLoop] at h
    rcases hstep : factorStep m bs nid st idx with err | stA
    · rw [hstep, except_bind_error] at h
      exact absurd h (by simp)
    · rw [hstep, except_bind_ok] at h
      obtain ⟨hksA, hlookA⟩ := factorStep_char hks hstep
      obtain ⟨hks1, hlook1⟩ := ih hksA h
      refine ⟨hks1, ?_⟩
      intro s k ov
      rw [hlook1 s k ov, hlookA s k ov]
      constructor
      · rintro ((hov | ⟨hk, hd⟩) | ⟨idx', hidx', hk, hd⟩)
        · exact Or.inl hov
        · exact Or.inr ⟨idx, List.mem_cons_self _ _, hk, hd⟩
        · exact Or.inr ⟨idx', List.mem_cons_of_mem _ hidx', hk, hd⟩
      · rintro (hov | ⟨idx', hidx', hk, hd⟩)
        · exact Or.inl (Or.inl hov)
        · rcases List.mem_cons.mp hidx' with rfl | hidx'
          · exact Or.inl (Or.inr ⟨hk, hd⟩)
          · exact Or.inr ⟨idx', hidx', hk, hd⟩

lemma sortSide_lookup (mp : FactoredSide) (k : Nat) :
    lookupF (sortSide mp) k = List.insertionSort ovGE (lookupF mp k) := by
  induction mp with
  | nil => rfl
  | cons q rest ih =>
    obtain ⟨k0, vs⟩ := q
    rw [sortSide, List.map_cons]
    dsimp only
    by_cases h : k0 = k
    · subst h
      rw [lookupF_cons_self, lookupF_cons_self]
    · rw [lookupF_cons_ne h, lookupF_cons_ne h]
      rw [← sortSide]
      exact ih

/-- C6: the `NodeInfo` factored-overlap table.  An overlap info appears in
`factored_overlaps[side][biclique]` exactly when some
`node_to_biclique_edge[node_id]` entry of that biclique derives it under the
side-assignment rule — the canonical biclique edge's endpoint equal to the
node sends the overlap to the node's right side (side 1) when that endpoint
handle is forward and to the left side (side 0) when it is reversed, and
symmetrically for the second endpoint (forward → side 0) — and every
per-(side, biclique) list is sorted by overlap length in descending order. -/
theorem factored_overlaps_spec (m : OverlapMap) (bs : Bicliques)
    (n2be : NodeToBicliqueEdge) (nid : Nat) (st : Factored)
    (h : NodeInfo.factored_overlaps m bs n2be nid = .ok st) :
    (∀ s bi ov, ov ∈ sideLookup st s bi ↔
      ∃ idx ∈ n2be nid, bi = idx.1 ∧ FactorDerives m bs nid idx s ov) ∧
    (∀ s bi, List.Sorted ovGE (sideLookup st s bi)) := by
  unfold NodeInfo.factored_overlaps factor_overlaps_by_biclique_and_side at h
  rcases hloop : factorLoop m bs nid (n2be nid) ([], []) with err | raw
  · rw [hloop] at h; exact absurd h (by simp [Except.map])
  · rw [hloop] at h
    simp only [Except.map, Except.ok.injEq] at h
    subst h
    obtain ⟨-, hlook⟩ := factorLoop_char
      ⟨by exact List.Pairwise.nil, by exact List.Pairwise.nil⟩ hloop
    have hsorted : ∀ s bi, sideLookup (sort_factored_overlaps raw) s bi =
        List.insertionSort ovGE (sideLookup raw s bi) := by
      intro s bi
      match s with
      | false =>
        rw [show sort_factored_overlaps raw =
          (sortSide raw.1, sortSide raw.2) from rfl,
          sideLookup_pair_false, sideLookup_false, sortSide_lookup]
      | true =>
        rw [show sort_factored_overlaps raw =
          (sortSide raw.1, sortSide raw.2) from rfl,
          sideLookup_pair_true, sideLookup_true, sortSide_lookup]
    constructor
    · intro s bi ov
      rw [hsorted s bi,
        (List.perm_insertionSort ovGE (sideLookup raw s bi)).mem_iff,
        hlook s bi ov]
      constructor
      · rintro (hov | hd)
        · have hemp : sideLookup (([], []) : Factored) s bi = [] := by
            cases s <;> rfl
          rw [hemp] at hov
          exact absurd hov (List.not_mem_nil ov)
        · exact hd
      · exact Or.inr
    · intro s bi
      rw [hsorted s bi]
      exact List.sorted_insertionSort ovGE (sideLookup raw s bi)

/-- Witness for C6 at a single biclique edge `(1+, 2-)` incident on node 1:
the overlap lands on node 1's right side (side 1, forward endpoint), is
derivable through the theorem's characterisation, and the resulting list is
sorted. -/
theorem factored_overlaps_spec_witness :
    NodeInfo.factored_overlaps
        (OverlapMap.mk [((⟨1, false⟩, ⟨2, true⟩), ⟨2, 3⟩)])
        [[(⟨1, false⟩, ⟨2, true⟩)]]
        (fun n => if n = 1 then [(0, 0)] else []) 1 =
      .ok (([], [(0, [⟨0, 2⟩])]) : Factored) ∧
    (⟨0, 2⟩ : OverlapInfo) ∈
      sideLookup (([], [(0, [⟨0, 2⟩])]) : Factored) true 0 ∧
    List.Sorted ovGE (sideLookup (([], [(0, [⟨0, 2⟩])]) : Factored) true 0) :=
  ⟨by rfl,
   ((factored_overlaps_spec
      (OverlapMap.mk [((⟨1, false⟩, ⟨2, true⟩), ⟨2, 3⟩)])
      [[(⟨1, false⟩, ⟨2, true⟩)]]
      (fun n => if n = 1 then [(0, 0)] else []) 1
      (([], [(0, [⟨0, 2⟩])]) : Factored) (by rfl)).1 true 0 ⟨0, 2⟩).mpr
    ⟨(0, 0), by decide, rfl,
     ⟨(⟨1, false⟩, ⟨2, true⟩), rfl, rfl, Or.inl ⟨rfl, rfl, rfl⟩⟩⟩,
   (factored_overlaps_spec
      (OverlapMap.mk [((⟨1, false⟩, ⟨2, true⟩), ⟨2, 3⟩)])
      [[(⟨1, false⟩, ⟨2, true⟩)]]
      (fun n => if n = 1 then [(0, 0)] else []) 1
      (([], [(0, [⟨0, 2⟩])]) : Factored) (by rfl)).2 true 0⟩

/-! ## Provenance computation (`Bluntifier::compute_provenance`) -/

/-- `size_t` modulus. -/
def SIZE64 : Nat := 18446744073709551616

/-- `size_t` addition. -/
def stAdd (a b : Nat) : Nat := (a + b) % SIZE64

/-- `size_t` subtraction (wraps on underflow). -/
def stSub (a b : Nat) : Nat := (a + (SIZE64 - b % SIZE64)) % SIZE64

/-- `size_t` multiplication (wraps on overflow). -/
def stMul (a b : Nat) : Nat := (a * b) % SIZE64

lemma stAdd_eq {a b : Nat} (h : a + b < SIZE64) : stAdd a b = a + b :=
  Nat.mod_eq_of_lt h

lemma stSub_eq {a b : Nat} (hb : b ≤ a) (ha : a < SIZE64) :
    stSub a b = a - b := by
  unfold stSub SIZE64
  unfold SIZE64 at ha
  have hblt : b < 18446744073709551616 := lt_of_le_of_lt hb ha
  rw [Nat.mod_eq_of_lt hblt]
  omega

/-- The part of the handle-graph state `compute_provenance` reads: sequence
lengths per node id and the named paths (child POA paths `"<id>_<side>"` and
parent paths `"<id>"`); modelled from the spec's §4.1 graph contract
(libhandlegraph is an external collaborator). -/
structure PGraph where
  length : Nat → Nat
  paths : List (String × List Handle)

/-- `get_path_handle` by name (the C++ call aborts when the path is absent;
the embedding returns `none` there), with `scan_path` yielding the handle
list. -/
def PGraph.get_path_handle (g : PGraph) (name : String) :
    Option (List Handle) :=
  (g.paths.find? (fun p => p.1 = name)).map (fun p => p.2)

/-- Association-list lookup for `std::map<nid_t, nid_t>`-style maps. -/
def mapAt (l : List (Nat × Nat)) (k : Nat) : Option Nat :=
  (l.find? (fun p => p.1 = k)).map (fun p => p.2)

/-- `ProvenanceInfo(start, stop, reversal)`: a closed interval of the parent's
sequence plus an orientation flag. -/
structure ProvenanceInfo where
  start : Nat
  stop : Nat
  reversal : Bool
deriving DecidableEq, Repr

/-- One emitted provenance record: output node id, parent node id, interval
(the order of records mirrors the order of
`provenance_map[id].emplace(parent_node_id, info)` calls; the `std::map`
`emplace` downstream keeps only the first record per (output, parent) pair). -/
abbrev ProvRec := Nat × Nat × ProvenanceInfo

/-- Errors of `compute_provenance`: a factoring failure, an empty overlap
vector (`overlap_infos[0]` on an empty vector), a bad biclique edge index, a
canonicalisation failure, a missing `child_to_parent` entry
(`child_to_parent.at` throws), or a missing path. -/
inductive ProvErr where
  | nodeInfo (e : NodeInfoErr)
  | emptyOverlapList (bi : Nat)
  | badIndex (bi ei : Nat)
  | canonNotFound (e : Edge)
  | childMissing (nid : Nat)
  | pathMissing (name : String)
deriving DecidableEq, Repr

/-- The walk of a child's POA path: for each step of length `l` emit
`(parent_id → [pidx, pidx + l - 1], reversal)` and advance `pidx` by `l`
(`parent_index += length` — the code advances forward on every side). -/
def provWalk (g : PGraph) (pid : Nat) (reversal : Bool) :
    List Handle → Nat → List ProvRec
  | [], _ => []
  | h :: rest, pidx =>
      (h.nodeId, pid, ⟨pidx, stSub (stAdd pidx (g.length h.nodeId)) 1,
        reversal⟩) ::
        provWalk g pid reversal rest (stAdd pidx (g.length h.nodeId))

/-- Write the (possibly rewritten) edge back into the biclique store: the C++
takes `edge_t& edge = bicliques[biclique_index][edge_index]` by reference, so
the in-place rewrite of `canonicalize_and_find` mutates the stored edge. -/
def bicliquesSet (bs : Bicliques) (bi ei : Nat) (e : Edge) : Bicliques :=
  bs.set bi ((bs.getD bi []).set ei e)

/-- Processing of one biclique incident on the parent inside
`compute_provenance`: take the longest participating overlap
(`overlap_infos[0]`, the lists are sorted descending) as representative,
canonicalise its biclique edge (mutating the store), decide which end of the
parent the biclique sits at and whether the child is reversed, then walk the
child's POA path `"<child_id>_<parent_side>"` emitting provenance records. -/
def processBicliqueOverlap (m : OverlapMap) (bs : Bicliques)
    (c2p : List (Nat × Nat)) (g : PGraph) (pid plen bi : Nat)
    (ovs : List OverlapInfo) : Except ProvErr (Bicliques × List ProvRec) :=
  match ovs with
  | [] => .error (.emptyOverlapList bi)
  | ov :: _ =>
    match bicliquesGet bs (bi, ov.edge_index) with
    | none => .error (.badIndex bi ov.edge_index)
    | some e0 =>
      let t := m.canonicalize_and_find e0
      match t.2.2 with
      | .error _ => .error (.canonNotFound e0)
      | .ok kv =>
        let ce := kv.1
        let ed := t.2.1
        let bs1 := bicliquesSet bs bi ov.edge_index ed
        match mapAt c2p ce.1.nodeId with
        | none => .error (.childMissing ce.1.nodeId)
        | some p1 =>
          let reversal := if p1 = pid then ce.1.rev else ce.2.rev
          let child_id := if p1 = pid then ce.1.nodeId else ce.2.nodeId
          let pidx0 :=
            if p1 = pid then
              (if ce.1.rev then 0 else stSub plen ov.length)
            else
              (if ce.2.rev then stSub plen ov.length else 0)
          let ps0 : Nat := if p1 = pid then 0 else 1
          let parent_side := if ce ≠ ed then 1 - ps0 else ps0
          let child_path_name :=
            toString child_id ++ "_" ++ toString parent_side
          match g.get_path_handle child_path_name with
          | none => .error (.pathMissing child_path_name)
          | some steps => .ok (bs1, provWalk g pid reversal steps pidx0)

/-- The loop over the (side, biclique) factored-overlap entries of one side,
threading the (possibly mutated) biclique store. -/
def provenanceSide (m : OverlapMap) (c2p : List (Nat × Nat)) (g : PGraph)
    (pid plen : Nat) :
    List (Nat × List OverlapInfo) → Bicliques →
      Except ProvErr (Bicliques × List ProvRec)
  | [], bs => .ok (bs, [])
  | (bi, ovs) :: rest, bs => do
      let r1 ← processBicliqueOverlap m bs c2p g pid plen bi ovs
      let r2 ← provenanceSide m c2p g pid plen rest r1.1
      .ok (r2.1, r1.2 ++ r2.2)

/-- The first loop of `compute_provenance` over the parent's path: accumulate
the parent length, emit a forward record for every surviving middle piece,
skip duplicated children, and stop (`break`) at a right-side child. -/
def scanParentPath (c2p : List (Nat × Nat)) (destroyed : List Nat)
    (g : PGraph) (pid : Nat) :
    List Handle → Nat → Nat → Nat → List ProvRec → Nat × List ProvRec
  | [], _, _, plen, recs => (plen, recs)
  | h :: rest, i, pidx, plen, recs =>
      let id := h.nodeId
      let len := g.length id
      let plen1 := stAdd plen len
      if (mapAt c2p id).isSome then
        if i = 0 then
          scanParentPath c2p destroyed g pid rest (i + 1) (stAdd pidx len)
            plen1 recs
        else (plen1, recs)
      else if id ∈ destroyed then
        scanParentPath c2p destroyed g pid rest (i + 1) (stAdd pidx len)
          plen1 recs
      else
        scanParentPath c2p destroyed g pid rest (i + 1) (stAdd pidx len)
          plen1
          (recs ++ [(id, pid, ⟨pidx, stSub (stAdd pidx len) 1, false⟩)])

/-- One step of the parent-aware overload
`NodeInfo::factor_overlaps_by_biclique_and_side(child_to_parent)`: the stored
edge is canonicalised first (on a copy), each endpoint id is mapped through
`child_to_parent` when present, then the same side-assignment rule applies; a
node on neither side raises `parent node not found`. -/
def factorStepWithParents (m : OverlapMap) (bs : Bicliques)
    (c2p : List (Nat × Nat)) (nid : Nat) (st : Factored) (idx : Nat × Nat) :
    Except NodeInfoErr Factored :=
  match bicliquesGet bs idx with
  | none => .error (.badIndex idx.1 idx.2)
  | some e0 =>
    match (m.canonicalize_and_find e0).2.2 with
    | .error _ => .error (.canonNotFound e0)
    | .ok kv =>
      let e := kv.1
      let left_id := (mapAt c2p e.1.nodeId).getD e.1.nodeId
      let right_id := (mapAt c2p e.2.nodeId).getD e.2.nodeId
      let stepL : Except NodeInfoErr Factored :=
        if left_id = nid then
          match get_overlap_length m e false with
          | none => .error (.missingOverlap e)
          | some len =>
              if e.1.rev = false then
                .ok (st.1, mapEmplaceBack st.2 idx.1 ⟨idx.2, len⟩)
              else .ok (mapEmplaceBack st.1 idx.1 ⟨idx.2, len⟩, st.2)
        else .ok st
      match stepL with
      | .error err => .error err
      | .ok st1 =>
        let stepR : Except NodeInfoErr Factored :=
          if right_id = nid then
            match get_overlap_length m e true with
            | none => .error (.missingOverlap e)
            | some len =>
                if e.2.rev = false then
                  .ok (mapEmplaceBack st1.1 idx.1 ⟨idx.2, len⟩, st1.2)
                else .ok (st1.1, mapEmplaceBack st1.2 idx.1 ⟨idx.2, len⟩)
          else .ok st1
        match stepR with
        | .error err => .error err
        | .ok st2 =>
            if left_id ≠ nid ∧ right_id ≠ nid then
              .error (.parentNotFound nid e)
            else .ok st2

/-- The loop of the parent-aware factoring overload. -/
def factorLoopWithParents (m : OverlapMap) (bs : Bicliques)
    (c2p : List (Nat × Nat)) (nid : Nat) :
    List (Nat × Nat) → Factored → Except NodeInfoErr Factored
  | [], st => .ok st
  | idx :: rest, st => do
      let st1 ← factorStepWithParents m bs c2p nid st idx
      factorLoopWithParents m bs c2p nid rest st1

/-- The `NodeInfo` constructor used by `compute_provenance` (parent-aware
factoring followed by sorting). -/
def NodeInfo.factored_overlaps_with_parents (m : OverlapMap) (bs : Bicliques)
    (c2p : List (Nat × Nat)) (n2be : NodeToBicliqueEdge) (nid : Nat) :
    Except NodeInfoErr Factored :=
  (factorLoopWithParents m bs c2p nid (n2be nid) ([], [])).map
    sort_factored_overlaps

/-- `Bluntifier::compute_provenance`, one iteration of the outer loop over
parent node ids: scan the parent path, recompute the factored overlaps with
the child-to-parent map, then walk each incident biclique on each side. -/
def compute_provenance_for_parent (m : OverlapMap) (bs : Bicliques)
    (c2p : List (Nat × Nat)) (destroyed : List Nat) (g : PGraph)
    (n2be : NodeToBicliqueEdge) (pid : Nat) :
    Except ProvErr (Bicliques × List ProvRec) :=
  match g.get_path_handle (toString pid) with
  | none => .error (.pathMissing (toString pid))
  | some steps =>
    let scan := scanParentPath c2p destroyed g pid steps 0 0 0 []
    match NodeInfo.factored_overlaps_with_parents m bs c2p n2be pid with
    | .error e => .error (.nodeInfo e)
    | .ok ni => do
        let r1 ← provenanceSide m c2p g pid scan.1 ni.1 bs
        let r2 ← provenanceSide m c2p g pid scan.1 ni.2 r1.1
        .ok (r2.1, scan.2 ++ r1.2 ++ r2.2)

lemma provWalk_reversal (g : PGraph) (pid : Nat) (rev : Bool) :
    ∀ (steps : List Handle) (pidx : Nat) (r : ProvRec),
      r ∈ provWalk g pid rev steps pidx → r.2.2.reversal = rev := by
  intro steps
  induction steps with
  | nil => intro pidx r hr; rw [provWalk] at hr; exact absurd hr (by simp)
  | cons h rest ih =>
    intro pidx r hr
    rw [provWalk] at hr
    rcases List.mem_cons.mp hr with rfl | hr
    · rfl
    · exact ih _ r hr

lemma provWalk_adjacent (g : PGraph) (pid : Nat) (rev : Bool) :
    ∀ (steps : List Handle) (pidx j : Nat) (r r' : ProvRec),
      (provWalk g pid rev steps pidx).get? j = some r →
      (provWalk g pid rev steps pidx).get? (j + 1) = some r' →
      r'.2.2.start = stAdd r.2.2.start (g.length r.1) ∧
      r.2.2.stop = stSub (stAdd r.2.2.start (g.length r.1)) 1 := by
  intro steps
  induction steps with
  | nil =>
    intro pidx j r r' hr hr'
    rw [provWalk] at hr
    exact absurd hr (by simp)
  | cons h rest ih =>
    intro pidx j r r' hr hr'
    rw [provWalk] at hr hr'
    match j with
    | 0 =>
      simp only [List.get?_cons_zero, Option.some.injEq] at hr
      simp only [List.get?_cons_succ] at hr'
      subst hr
      match rest with
      | [] => rw [provWalk] at hr'; exact absurd hr' (by simp)
      | h2 :: rest2 =>
        rw [provWalk] at hr'
        simp only [List.get?_cons_zero, Option.some.injEq] at hr'
        subst hr'
        exact ⟨rfl, rfl⟩
    | Nat.succ j0 =>
      simp only [List.get?_cons_succ] at hr hr'
      exact ih _ j0 r r' hr hr'

lemma provWalk_head_start (g : PGraph) (pid : Nat) (rev : Bool)
    (steps : List Handle) (pidx : Nat) (r : ProvRec)
    (h : (provWalk g pid rev steps pidx).head? = some r) :
    r.2.2.start = pidx := by
  match steps with
  | [] => rw [provWalk] at h; exact absurd h (by simp)
  | h0 :: rest =>
    rw [provWalk] at h
    simp only [List.head?_cons, Option.some.injEq] at h
    subst h
    rfl

/-- C3 (amended): inside `compute_provenance`, the walk for a biclique
incident on the parent takes the first (longest, by descending sort) overlap
as representative and emits, for each step of the child's POA path, a record
`(parent_id → [pidx, pidx + l - 1], reversal)`, where `pidx` starts at `0`
when the overlap lies on the parent's left side (first canonical endpoint
reversed, or second endpoint forward) and at `parent_length − overlap_length`
on the right side (first endpoint forward, or second endpoint reversed), and
`pidx` advances by `+l` per step on every side — indices never decrease; the
orientation only sets the records' reversed flag. -/
theorem provenance_biclique_records (m : OverlapMap) (bs : Bicliques)
    (c2p : List (Nat × Nat)) (g : PGraph) (pid plen bi : Nat)
    (ov : OverlapInfo) (ovs : List OverlapInfo) (bs' : Bicliques)
    (recs : List ProvRec) (e0 : Edge) (kv : Edge × Alignment) (p1 : Nat)
    (h : processBicliqueOverlap m bs c2p g pid plen bi (ov :: ovs) =
      .ok (bs', recs))
    (hbg : bicliquesGet bs (bi, ov.edge_index) = some e0)
    (hkv : (m.canonicalize_and_find e0).2.2 = .ok kv)
    (hp1 : mapAt c2p kv.1.1.nodeId = some p1) :
    ∃ steps,
      g.get_path_handle
        (toString (if p1 = pid then kv.1.1.nodeId else kv.1.2.nodeId) ++
          "_" ++ toString (if p1 = pid then (0 : Nat) else 1)) =
        some steps ∧
      recs = provWalk g pid (if p1 = pid then kv.1.1.rev else kv.1.2.rev)
        steps
        (if p1 = pid then (if kv.1.1.rev then 0 else stSub plen ov.length)
         else (if kv.1.2.rev then stSub plen ov.length else 0)) ∧
      (∀ r ∈ recs, r.2.2.reversal =
        (if p1 = pid then kv.1.1.rev else kv.1.2.rev)) ∧
      (∀ r, recs.head? = some r → r.2.2.start =
        (if p1 = pid then (if kv.1.1.rev then 0 else stSub plen ov.length)
         else (if kv.1.2.rev then stSub plen ov.length else 0))) ∧
      (∀ j r r', recs.get? j = some r → recs.get? (j + 1) = some r' →
        r'.2.2.start = stAdd r.2.2.start (g.length r.1) ∧
        r.2.2.stop = stSub (stAdd r.2.2.start (g.length r.1)) 1 ∧
        (r.2.2.start + g.length r.1 < SIZE64 → 1 ≤ g.length r.1 →
          r.2.2.start < r'.2.2.start)) := by
  unfold processBicliqueOverlap at h
  dsimp only at h
  rw [hbg] at h
  dsimp only at h
  rw [hkv] at h
  have harg := canon_arg_eq_key hkv
  rw [harg] at h
  dsimp only at h
  rw [hp1] at h
  dsimp only at h
  simp only [ne_eq, not_true_eq_false, if_false] at h
  rcases hsteps : g.get_path_handle
      (toString (if p1 = pid then kv.1.1.nodeId else kv.1.2.nodeId) ++
        "_" ++ toString (if p1 = pid then (0 : Nat) else 1)) with _ | steps
  · rw [hsteps] at h
    exact absurd h (by simp)
  · rw [hsteps] at h
    simp only [Except.ok.injEq, Prod.mk.injEq] at h
    obtain ⟨-, hrecs⟩ := h
    subst hrecs
    refine ⟨steps, rfl, rfl, ?_, ?_, ?_⟩
    · intro r hr
      exact provWalk_reversal g pid _ steps _ r hr
    · intro r hr
      exact provWalk_head_start g pid _ steps _ r hr
    · intro j r r' hr hr'
      obtain ⟨h1, h2⟩ := provWalk_adjacent g pid _ steps _ j r r' hr hr'
      refine ⟨h1, h2, ?_⟩
      intro hsm hpos
      rw [h1, stAdd_eq hsm]
      omega

/-- C3 counterexample: a parent node (id 5, length 4) whose single biclique
overlap sits on its left side with the child reversed.  `compute_provenance`
emits the walk records with the reversed flag set but with strictly
*increasing* parent indices (`[0,1]` then `[2,3]`), not decreasing ones as the
claim states for reversed sides. -/
theorem compute_provenance_reversed_not_decreasing :
    compute_provenance_for_parent
        (OverlapMap.mk [((⟨7, true⟩, ⟨6, false⟩), ⟨4, 4⟩)])
        [[(⟨7, true⟩, ⟨6, false⟩)]]
        [(7, 5), (6, 3)] []
        (PGraph.mk
          (fun n => if n = 7 then 4 else if n = 8 then 2 else
            if n = 9 then 2 else 1)
          [("5", [⟨7, false⟩]), ("7_0", [⟨8, false⟩, ⟨9, false⟩])])
        (fun n => if n = 5 then [(0, 0)] else []) 5 =
      .ok ([[(⟨7, true⟩, ⟨6, false⟩)]],
        [(8, 5, ⟨0, 1, true⟩), (9, 5, ⟨2, 3, true⟩)]) ∧
    ([(8, 5, ⟨0, 1, true⟩), (9, 5, ⟨2, 3, true⟩)] : List ProvRec).map
        (fun r => r.2.2.reversal) = [true, true] ∧
    ¬ List.Chain' (fun a b : ProvRec => b.2.2.start < a.2.2.start)
        [(8, 5, ⟨0, 1, true⟩), (9, 5, ⟨2, 3, true⟩)] :=
  ⟨by rfl, by rfl, by
    rw [List.chain'_cons]
    rintro ⟨hlt, -⟩
    exact absurd hlt (by decide)⟩

/-- Witness for the amended C3 at the concrete state of the counterexample:
the emitted records are exactly the forward walk of the child path `"7_0"`
starting at parent index 0 (left side, reversed child). -/
theorem provenance_biclique_records_witness :
    ([(8, 5, ⟨0, 1, true⟩), (9, 5, ⟨2, 3, true⟩)] : List ProvRec) =
      provWalk
        (PGraph.mk
          (fun n => if n = 7 then 4 else if n = 8 then 2 else
            if n = 9 then 2 else 1)
          [("5", [⟨7, false⟩]), ("7_0", [⟨8, false⟩, ⟨9, false⟩])])
        5 true [⟨8, false⟩, ⟨9, false⟩] 0 := by
  obtain ⟨steps, hs, hr, -, -, -⟩ := provenance_biclique_records
    (OverlapMap.mk [((⟨7, true⟩, ⟨6, false⟩), ⟨4, 4⟩)])
    [[(⟨7, true⟩, ⟨6, false⟩)]]
    [(7, 5), (6, 3)]
    (PGraph.mk
      (fun n => if n = 7 then 4 else if n = 8 then 2 else
        if n = 9 then 2 else 1)
      [("5", [⟨7, false⟩]), ("7_0", [⟨8, false⟩, ⟨9, false⟩])])
    5 4 0 ⟨0, 4⟩ [] [[(⟨7, true⟩, ⟨6, false⟩)]]
    [(8, 5, ⟨0, 1, true⟩), (9, 5, ⟨2, 3, true⟩)]
    (⟨7, true⟩, ⟨6, false⟩) ((⟨7, true⟩, ⟨6, false⟩), ⟨4, 4⟩) 5
    (by rfl) (by rfl) (by rfl) (by rfl)
  have hval : (PGraph.mk
      (fun n => if n = 7 then 4 else if n = 8 then 2 else
        if n = 9 then 2 else 1)
      [("5", [⟨7, false⟩]), ("7_0", [⟨8, false⟩, ⟨9, false⟩])]
        : PGraph).get_path_handle
      (toString (if 5 = 5 then (7 : Nat) else 6) ++ "_" ++
        toString (if 5 = 5 then (0 : Nat) else 1)) =
      some [⟨8, false⟩, ⟨9, false⟩] := by rfl
  rw [hval] at hs
  simp only [Option.some.injEq] at hs
  rw [hr, ← hs]
  rfl

/-! ## Subgraph splicing (`Bluntifier::splice_subgraphs`,
`Bluntifier::is_oo_node_child`, `Bluntifier::is_oo_node_parent`) -/

/-- The part of the main graph state `splice_subgraphs` reads and writes:
edges (for `follow_edges` / `create_edge`) and named paths (copied POA paths
and overlapping-overlap parent paths); modelled from the spec's §4.1 graph
contract. -/
structure GGraph where
  edges : List Edge
  paths : List (String × List Handle)

/-- `get_path_handle` by name on the main graph. -/
def GGraph.get_path_handle (g : GGraph) (name : String) :
    Option (List Handle) :=
  (g.paths.find? (fun p => p.1 = name)).map (fun p => p.2)

/-- `follow_edges(handle, go_left, fn)`: the neighbours of a handle on its
left (`go_left`) or right side of the bidirected edge list (the C++ collects
them into a `std::set`; only the collected set matters here). -/
def GGraph.followEdges (g : GGraph) (h : Handle) (goLeft : Bool) :
    List Handle :=
  if goLeft then
    (g.edges.filterMap (fun e => if e.2 = h then some e.1 else none)) ++
      (g.edges.filterMap (fun e =>
        if e.1 = h.flip then some e.2.flip else none))
  else
    (g.edges.filterMap (fun e => if e.1 = h then some e.2 else none)) ++
      (g.edges.filterMap (fun e =>
        if e.2 = h.flip then some e.1.flip else none))

/-- `create_edge(left, right)`. -/
def GGraph.create_edge (g : GGraph) (l r : Handle) : GGraph :=
  ⟨g.edges ++ [(l, r)], g.paths⟩

/-- The fields of `PathInfo` that splicing reads: the POA path handle in the
subgraph and which side of the biclique the terminus sat on. -/
structure PathInfo where
  path_handle : Nat
  biclique_side : Bool
deriving DecidableEq, Repr

/-- A per-biclique POA subgraph as the splicer sees it: its own named paths
(for `get_path_name`) and the terminus-to-path tables per biclique side. -/
structure Subgraph where
  graph : List (String × List Handle)
  paths_per_handle : Bool → List (Handle × PathInfo)

/-- `subgraph.graph.get_path_name(path_handle)`. -/
def Subgraph.get_path_name (sub : Subgraph) (i : Nat) : Option String :=
  (sub.graph.get? i).map (fun p => p.1)

/-- One entry of `overlapping_overlap_nodes`: the OO parent's path name and
its overlapping children per side (`OverlappingNodeInfo`). -/
structure OverlappingNodeInfo where
  parent_path_name : String
  overlapping_children : Bool → List (Nat × Handle)

/-- `Bluntifier::is_oo_node_child(node_id)`: the node is a child of an
overlapping-overlap parent and appears among that parent's overlapping
children on either side. -/
def is_oo_node_child (oo : List (Nat × OverlappingNodeInfo))
    (c2p : List (Nat × Nat)) (nid : Nat) : Bool :=
  match mapAt c2p nid with
  | none => false
  | some parent =>
    match oo.find? (fun p => p.1 = parent) with
    | none => false
    | some (_, info) =>
        (info.overlapping_children false).any (fun it => it.2.nodeId = nid) ||
          (info.overlapping_children true).any (fun it => it.2.nodeId = nid)

/-- Errors of `splice_subgraphs`: a missing path (the C++ `get_path_handle`
aborts there), a bad subgraph path handle, an empty POA path, or the fatal
`DanglingTerminus` (`runtime_error("ERROR: biclique terminus does not have any
parent: <node_id>")`). -/
inductive SpliceErr where
  | pathMissing (name : String)
  | badPathHandle (i : Nat)
  | emptyPath (name : String)
  | danglingTerminus (nid : Nat)
deriving DecidableEq, Repr

/-- `Bluntifier::is_oo_node_parent(node_id)`: the node is a child of an
overlapping-overlap parent and lies on that parent's recorded parent path. -/
def is_oo_node_parent (gfa : GGraph) (oo : List (Nat × OverlappingNodeInfo))
    (c2p : List (Nat × Nat)) (nid : Nat) : Except SpliceErr Bool :=
  match mapAt c2p nid with
  | none => .ok false
  | some parent =>
    match oo.find? (fun p => p.1 = parent) with
    | none => .ok false
    | some (_, info) =>
      match gfa.get_path_handle info.parent_path_name with
      | none => .error (.pathMissing info.parent_path_name)
      | some steps => .ok (steps.any (fun h => h.nodeId = nid))

/-- Processing of one biclique terminus inside the splice loop
(`splice_subgraphs`, inner loop body): compute the OO-child and OO-parent
predicates, and unless the terminus is an OO child, find its non-destroyed
parent handles on the opposite side and splice the copied POA path in —
failing fatally with `DanglingTerminus` when there is no parent handle and
the node is not an OO parent; finally schedule the terminus for destruction
when it appears in no path table of its other side. -/
def spliceTerminus (gfa : GGraph) (sub : Subgraph)
    (oo : List (Nat × OverlappingNodeInfo)) (c2p : List (Nat × Nat))
    (destroyed : List Nat) (side : Bool) (handle : Handle)
    (pinfo : PathInfo) : Except SpliceErr (GGraph × List Nat) :=
  let node_id := handle.nodeId
  let is_child := is_oo_node_child oo c2p node_id
  match is_oo_node_parent gfa oo c2p node_id with
  | .error e => .error e
  | .ok is_parent =>
    let spliced : Except SpliceErr GGraph :=
      if is_child = false then
        match sub.get_path_name pinfo.path_handle with
        | none => .error (.badPathHandle pinfo.path_handle)
        | some pname =>
          match gfa.get_path_handle pname with
          | none => .error (.pathMissing pname)
          | some steps =>
            let parent_handles := (gfa.followEdges handle (!side)).filter
              (fun h => h.nodeId ∉ destroyed)
            if parent_handles = [] ∧ is_parent = false then
              .error (.danglingTerminus node_id)
            else
              if pinfo.biclique_side = false then
                match steps.head? with
                | none => .error (.emptyPath pname)
                | some first =>
                    .ok (parent_handles.foldl
                      (fun gg ph => gg.create_edge ph first) gfa)
              else
                match steps.getLast? with
                | none => .error (.emptyPath pname)
                | some last =>
                    .ok (parent_handles.foldl
                      (fun gg ph => gg.create_edge last ph) gfa)
      else .ok gfa
    match spliced with
    | .error e => .error e
    | .ok gfa1 =>
        let des1 :=
          if ((sub.paths_per_handle (!side)).all (fun it => it.1 ≠ handle)) ∧
             ((sub.paths_per_handle (!side)).all
               (fun it => it.1 ≠ handle.flip)) then
            destroyed ++ [node_id]
          else destroyed
        .ok (gfa1, des1)

lemma is_oo_node_parent_error {gfa : GGraph}
    {oo : List (Nat × OverlappingNodeInfo)} {c2p : List (Nat × Nat)}
    {nid : Nat} {e : SpliceErr}
    (h : is_oo_node_parent gfa oo c2p nid = .error e) :
    ∃ name, e = .pathMissing name := by
  unfold is_oo_node_parent at h
  rcases h1 : mapAt c2p nid with _ | parent
  · rw [h1] at h; exact absurd h (by simp)
  · rw [h1] at h
    dsimp only at h
    rcases h2 : oo.find? (fun p => p.1 = parent) with _ | q
    · rw [h2] at h; exact absurd h (by simp)
    · rw [h2] at h
      dsimp only at h
      rcases h3 : gfa.get_path_handle q.2.parent_path_name with _ | steps
      · rw [h3] at h
        simp only [Except.error.injEq] at h
        exact ⟨q.2.parent_path_name, h.symm⟩
      · rw [h3] at h
        exact absurd h (by simp)

/-- C7 (amended): splicing a biclique terminus fails fatally with
`DanglingTerminus` naming the terminus's node id exactly when the terminus is
*not* an overlapping-overlap child, it has no adjacent non-destroyed parent
handle in the main graph on the appropriate side, and it is not an
overlapping-overlap parent; in every other situation no `DanglingTerminus`
error is raised for that terminus.  (OO children skip the splice entirely, so
— contrary to the claim as stated — a parentless OO child does not fail.) -/
theorem spliceTerminus_dangling_iff (gfa : GGraph) (sub : Subgraph)
    (oo : List (Nat × OverlappingNodeInfo)) (c2p : List (Nat × Nat))
    (destroyed : List Nat) (side : Bool) (handle : Handle) (pinfo : PathInfo)
    (pname : String) (steps : List Handle)
    (hpn : sub.get_path_name pinfo.path_handle = some pname)
    (hph : gfa.get_path_handle pname = some steps) (n : Nat) :
    spliceTerminus gfa sub oo c2p destroyed side handle pinfo =
        .error (.danglingTerminus n) ↔
      (n = handle.nodeId ∧
       is_oo_node_child oo c2p handle.nodeId = false ∧
       (gfa.followEdges handle (!side)).filter
         (fun h => h.nodeId ∉ destroyed) = [] ∧
       is_oo_node_parent gfa oo c2p handle.nodeId = .ok false) := by
  constructor
  · intro h
    unfold spliceTerminus at h
    dsimp only at h
    rcases hpar : is_oo_node_parent gfa oo c2p handle.nodeId with e | isp
    · rw [hpar] at h
      dsimp only at h
      simp only [Except.error.injEq] at h
      obtain ⟨name, hname⟩ := is_oo_node_parent_error hpar
      rw [hname] at h
      exact absurd h (by simp)
    · rw [hpar] at h
      dsimp only at h
      by_cases hch : is_oo_node_child oo c2p handle.nodeId = false
      · rw [if_pos hch, hpn] at h
        dsimp only at h
        rw [hph] at h
        dsimp only at h
        by_cases hcond : (gfa.followEdges handle (!side)).filter
            (fun h => h.nodeId ∉ destroyed) = [] ∧ isp = false
        · rw [if_pos hcond] at h
          dsimp only at h
          simp only [Except.error.injEq, SpliceErr.danglingTerminus.injEq]
            at h
          exact ⟨h.symm, hch, hcond.1, by rw [hcond.2]⟩
        · rw [if_neg hcond] at h
          rcases hbs : pinfo.biclique_side with _ | _
          · rw [hbs] at h
            simp only [if_pos rfl] at h
            rcases hhd : steps.head? with _ | first
            · rw [hhd] at h
              dsimp only at h
              exact absurd h (by simp)
            · rw [hhd] at h
              dsimp only at h
              by_cases hdes : ((sub.paths_per_handle (!side)).all
                    (fun it => it.1 ≠ handle)) ∧
                  ((sub.paths_per_handle (!side)).all
                    (fun it => it.1 ≠ handle.flip))
              · rw [if_pos hdes] at h
                exact absurd h (by simp)
              · rw [if_neg hdes] at h
                exact absurd h (by simp)
          · rw [hbs] at h
            simp only [Bool.true_eq_false, if_false] at h
            rcases hlst : steps.getLast? with _ | last
            · rw [hlst] at h
              dsimp only at h
              exact absurd h (by simp)
            · rw [hlst] at h
              dsimp only at h
              by_cases hdes : ((sub.paths_per_handle (!side)).all
                    (fun it => it.1 ≠ handle)) ∧
                  ((sub.paths_per_handle (!side)).all
                    (fun it => it.1 ≠ handle.flip))
              · rw [if_pos hdes] at h
                exact absurd h (by simp)
              · rw [if_neg hdes] at h
                exact absurd h (by simp)
      · rw [if_neg hch] at h
        dsimp only at h
        by_cases hdes : ((sub.paths_per_handle (!side)).all
              (fun it => it.1 ≠ handle)) ∧
            ((sub.paths_per_handle (!side)).all
              (fun it => it.1 ≠ handle.flip))
        · rw [if_pos hdes] at h
          exact absurd h (by simp)
        · rw [if_neg hdes] at h
          exact absurd h (by simp)
  · rintro ⟨hn, hch, hfil, hpar⟩
    subst hn
    unfold spliceTerminus
    dsimp only
    rw [hpar]
    dsimp only
    rw [if_pos hch, hpn]
    dsimp only
    rw [hph]
    dsimp only
    rw [if_pos ⟨hfil, rfl⟩]

/-- C7 counterexample: a terminus (node 20) that is an overlapping-overlap
*child* but not an OO parent and has no adjacent non-destroyed parent handle.
The claim as stated demands a fatal `DanglingTerminus(20)`; the code skips
the splice for OO children and completes without error (merely scheduling
the terminus for destruction). -/
theorem spliceTerminus_oo_child_no_error :
    spliceTerminus
        (GGraph.mk [] [("10_path", [⟨11, false⟩])])
        (Subgraph.mk [("sp", [⟨21, false⟩])]
          (fun s => if s then [] else [(⟨20, false⟩, ⟨0, false⟩)]))
        [(10, OverlappingNodeInfo.mk "10_path"
          (fun s => if s then [] else [(0, ⟨20, false⟩)]))]
        [(20, 10)] [] false ⟨20, false⟩ ⟨0, false⟩ =
      .ok (GGraph.mk [] [("10_path", [⟨11, false⟩])], [20]) ∧
    (GGraph.mk [] [("10_path", [⟨11, false⟩])]).followEdges ⟨20, false⟩
        (!false) = [] ∧
    is_oo_node_parent (GGraph.mk [] [("10_path", [⟨11, false⟩])])
        [(10, OverlappingNodeInfo.mk "10_path"
          (fun s => if s then [] else [(0, ⟨20, false⟩)]))]
        [(20, 10)] 20 = .ok false ∧
    is_oo_node_child
        [(10, OverlappingNodeInfo.mk "10_path"
          (fun s => if s then [] else [(0, ⟨20, false⟩)]))]
        [(20, 10)] 20 = true :=
  ⟨by rfl, by rfl, by rfl, by rfl⟩

/-- Witness for the amended C7 at a concrete dangling terminus (node 30, no
OO involvement, no neighbours): the splice fails with
`DanglingTerminus(30)`. -/
theorem spliceTerminus_dangling_iff_witness :
    spliceTerminus
        (GGraph.mk [] [("p30", [⟨31, false⟩])])
        (Subgraph.mk [("p30", [⟨31, false⟩])] (fun _ => []))
        [] [] [] false ⟨30, false⟩ ⟨0, false⟩ =
      .error (.danglingTerminus 30) :=
  (spliceTerminus_dangling_iff
    (GGraph.mk [] [("p30", [⟨31, false⟩])])
    (Subgraph.mk [("p30", [⟨31, false⟩])] (fun _ => []))
    [] [] [] false ⟨30, false⟩ ⟨0, false⟩ "p30" [⟨31, false⟩]
    (by rfl) (by rfl) 30).mpr ⟨rfl, rfl, rfl, rfl⟩

/-! ## Biclique cover (`BicliqueCover.cpp`: `get`, `simplify`,
`CenteredGaloisTree`, `GaloisLattice`, `separator`) -/

/-- `size_t` max (`numeric_limits<size_t>::max()`). -/
def UMAX : Nat := 18446744073709551615

/-- Modelled from the spec: the `BipartiteGraph` block container is not under
src/.  A bipartite block is a pair `(Left, Right)` of disjoint oriented
handles with the block's adjacency (`for_each_adjacent_side`, `get_degree`,
`follow_edges` of the underlying graph restricted to the block); the lists
fix an iteration order. -/
structure BipartiteGraph where
  left : List Handle
  right : List Handle
  adj : Handle → List Handle

/-- `BipartiteGraph::get_degree`. -/
def BipartiteGraph.get_degree (g : BipartiteGraph) (h : Handle) : Nat :=
  (g.adj h).length

/-- Modelled from the spec: `SubtractiveHandleGraph` (not under src/) presents
the base graph minus a growing set of subtracted edges; `follow_edges` filters
them out. -/
def subFollow (g : BipartiteGraph) (sub : List (Handle × Handle))
    (h : Handle) : List Handle :=
  (g.adj h).filter (fun t => ¬ ((h, t) ∈ sub ∨ (t, h) ∈ sub))

/-- Default handle for list lookups whose indices are in range by
construction. -/
def dH : Handle := ⟨0, false⟩

/-- Nat-matrix accessors for the `vector<vector<uint64_t>>` state of
`simplify_side`. -/
def ngetM (m : List (List Nat)) (i j : Nat) : Nat := (m.getD i []).getD j 0

def nsetM (m : List (List Nat)) (i j v : Nat) : List (List Nat) :=
  m.set i ((m.getD i []).set j v)

def bgetM (m : List (List Bool)) (i j : Nat) : Bool :=
  (m.getD i []).getD j false

def bsetM (m : List (List Bool)) (i j : Nat) (v : Bool) :
    List (List Bool) :=
  m.set i ((m.getD i []).set j v)

/-- The mutable state of `BicliqueCover::simplify_side`: per-node degree, the
`Delta(u,v)` matrix, the successor matrix with its per-node count, the
`nonmaximal` flags (LI in Amilhastre), and the shared subtracted-edge set of
the `SubtractiveHandleGraph`.  All counters are `size_t`/`uint64_t` and wrap
on under/overflow. -/
structure SideState where
  degree : List Nat
  delta : List (List Nat)
  succ : List (List Bool)
  nsucc : List Nat
  nonmax : List Bool
  sub : List (Handle × Handle)

/-- Initialisation of `simplify_side`: neighbourhoods (and degrees) from the
raw graph, `Delta(i,j) = |Nbd(i)| - |Nbd(i) ∩ Nbd(j)|`, and `j` is a successor
of `i` when `Delta(i,j) = 0` (for `i ≠ j`), marking `i` nonmaximal. -/
def initSideState (g : BipartiteGraph) (part : List Handle)
    (sub0 : List (Handle × Handle)) : SideState :=
  let n := part.length
  let nbhd := fun i => (g.adj (part.getD i dH)).dedup
  let deltaF := fun i j =>
    if j = i then (nbhd i).length
    else stSub (nbhd i).length
      ((g.adj (part.getD j dH)).countP (fun x => x ∈ nbhd i))
  let succF := fun i j => decide (j ≠ i) && decide (deltaF i j = 0)
  { degree := (List.range n).map (fun i => (nbhd i).length)
    delta := (List.range n).map (fun i => (List.range n).map (deltaF i))
    succ := (List.range n).map (fun i => (List.range n).map (succF i))
    nsucc := (List.range n).map (fun i =>
      ((List.range n).filter (fun j => succF i j = true)).length)
    nonmax := (List.range n).map (fun i =>
      (List.range n).any (fun j => succF i j))
    sub := sub0 }

/-- The inner `k`-loop body run for every removed edge `(j, nbr)`:
unconditionally decrement `Delta(j,k)`; if `k` is still a neighbour of `nbr`,
increment `Delta(k,j)` and retract `j` as a successor of `k`; if `Delta(j,k)`
hit zero while `j` still has edges, record the new containment. -/
def removalK (part : List Handle) (j : Nat) (nbrNbrs : List Handle)
    (st : SideState) (k : Nat) : SideState :=
  let st1 := { st with delta := nsetM st.delta j k (stSub (ngetM st.delta j k) 1) }
  let st2 :=
    if part.getD k dH ∈ nbrNbrs then
      let stA := { st1 with delta := nsetM st1.delta k j (stAdd (ngetM st1.delta k j) 1) }
      if stA.nonmax.getD k false then
        let stX :=
          if bgetM stA.succ k j then
            { stA with succ := bsetM stA.succ k j false,
                       nsucc := stA.nsucc.set k (stSub (stA.nsucc.getD k 0) 1) }
          else stA
        if stX.nsucc.getD k 0 = 0 then
          { stX with nonmax := stX.nonmax.set k false }
        else stX
      else stA
    else st1
  if (ngetM st2.delta j k == 0 && st2.degree.getD j 0 != 0) = true then
    let stC := { st2 with nonmax := st2.nonmax.set j true }
    if bgetM stC.succ k j = false then
      { stC with succ := bsetM stC.succ k j true,
                 nsucc := stC.nsucc.set k (stAdd (stC.nsucc.getD k 0) 1) }
    else stC
  else st2

/-- Removal of one edge `(j, nbr)` (a neighbour `nbr` of `i` is removed from
the successor `j`): subtract the edge, decrement `j`'s degree, and update the
tracking state for every `k`. -/
def removeNbr (g : BipartiteGraph) (part : List Handle) (j : Nat)
    (st : SideState) (nbr : Handle) : SideState :=
  let st1 := { st with
    sub := st.sub ++ [(part.getD j dH, nbr)],
    degree := st.degree.set j (stSub (st.degree.getD j 0) 1) }
  let nbrNbrs := subFollow g st1.sub nbr
  (List.range part.length).foldl (removalK part j nbrNbrs) st1

/-- The `j`-loop of one simplification round: for every current successor `j`
of `i`, remove from `j` all edges to current neighbours of `i` (the neighbour
snapshot is taken when the iteration starts). -/
def processJ (g : BipartiteGraph) (part : List Handle) (i : Nat)
    (st : SideState) (j : Nat) : SideState :=
  if bgetM st.succ i j then
    (subFollow g st.sub (part.getD i dH)).foldl (removeNbr g part j) st
  else st

/-- One round of the simplification while-loop: process the first nonmaximal
node and clear its flag. -/
def processI (g : BipartiteGraph) (part : List Handle) (st : SideState)
    (i : Nat) : SideState :=
  let st1 := (List.range part.length).foldl (processJ g part i) st
  { st1 with nonmax := st1.nonmax.set i false }

/-- The while-loop of `simplify_side` (fuelled; the C++ loop runs until no
node is nonmaximal). -/
def simplifyLoop (g : BipartiteGraph) (part : List Handle) :
    Nat → SideState → Option SideState
  | 0, _ => none
  | fuel + 1, st =>
    match st.nonmax.findIdx? (fun b => b) with
    | none => some st
    | some i => simplifyLoop g part fuel (processI g part st i)

/-- Total adjacency size, used to bound the simplification fuel. -/
def gEdgeTotal (g : BipartiteGraph) : Nat :=
  ((g.left ++ g.right).map (fun h => (g.adj h).length)).sum

/-- `BicliqueCover::simplify_side` on one partition, returning the updated
subtracted-edge set. -/
def simplify_side (g : BipartiteGraph) (part : List Handle)
    (sub0 : List (Handle × Handle)) : Option (List (Handle × Handle)) :=
  (simplifyLoop g part
      ((gEdgeTotal g + 2) * (part.length + 2) * (part.length + 2))
      (initSideState g part sub0)).map (fun st => st.sub)

/-- `BicliqueCover::simplify`: simplify both sides over one shared
subtractive graph. -/
def BicliqueCover.simplify (g : BipartiteGraph) :
    Option (List (Handle × Handle)) := do
  let s1 ← simplify_side g g.left []
  simplify_side g g.right s1

/-- `CenteredGaloisTree`'s data members; `clear()` empties all four, and
`has_neighbor_ordering_property()` tests `equiv_classes` for emptiness. -/
structure CGTree where
  equiv_classes : List (List Handle)
  neighborhoods : List (List Handle)
  successors : List Nat
  equiv_class_predecessors : List (List Nat)

/-- `CenteredGaloisTree::clear`. -/
def CGTree.cleared : CGTree := ⟨[], [], [], []⟩

/-- `CenteredGaloisTree::has_neighbor_ordering_property`. -/
def CGTree.has_neighbor_ordering_property (t : CGTree) : Bool :=
  !t.equiv_classes.isEmpty

/-- `CenteredGaloisTree::size`. -/
def CGTree.size (t : CGTree) : Nat := t.equiv_classes.length

/-- `CenteredGaloisTree::right_size`. -/
def CGTree.right_size (t : CGTree) (i : Nat) : Nat :=
  (t.neighborhoods.getD i []).length

/-- `CenteredGaloisTree::successor` (`SIZE_MAX` = no successor). -/
def CGTree.successor (t : CGTree) (i : Nat) : Nat := t.successors.getD i UMAX

/-- `CenteredGaloisTree::predecessors`. -/
def CGTree.predecessors (t : CGTree) (i : Nat) : List Nat :=
  t.equiv_class_predecessors.getD i []

/-- The successor walk of `central_equivalence_class` (fuelled; the chain is
acyclic in the intended runs). -/
def centralWalk (succs : List Nat) : Nat → Nat → Nat
  | 0, i => i
  | f + 1, i =>
    let s := succs.getD i UMAX
    if s = UMAX then i else centralWalk succs f s

/-- `CenteredGaloisTree::central_equivalence_class`. -/
def CGTree.central_equivalence_class (t : CGTree) : Nat :=
  centralWalk t.successors (t.successors.length + 1) 0

/-- `unordered_set::insert` over a list, keeping first-insertion order. -/
def insSet (s : List Handle) (xs : List Handle) : List Handle :=
  xs.foldl (fun acc x => if x ∈ acc then acc else acc ++ [x]) s

/-- The successor walk of `CenteredGaloisTree::biclique` collecting the left
classes (fuelled). -/
def bicliqueWalk (t : CGTree) : Nat → Nat → List Handle → List Handle
  | 0, _, acc => acc
  | f + 1, i, acc =>
    if i = UMAX then acc
    else bicliqueWalk t f (t.successor i) (insSet acc (t.equiv_classes.getD i []))

/-- `CenteredGaloisTree::biclique`. -/
def CGTree.biclique (t : CGTree) (i : Nat) : Bipartition :=
  (bicliqueWalk t (t.successors.length + 2) i [],
   insSet [] (t.neighborhoods.getD i []))

/-- The two-hop subgraph state of the `CenteredGaloisTree` constructor:
`left_idx` assigns discovery indices to left nodes, `left_edges[i]` lists the
right indices adjacent to left node `i`, and the node lists are in discovery
order. -/
structure TwoHop where
  left_idx : List (Handle × Nat)
  left_edges : List (List Nat)
  left_nodes : List Handle
  right_nodes : List Handle

/-- `unordered_map<handle_t, size_t>::find`. -/
def lookupIdx (l : List (Handle × Nat)) (h : Handle) : Option Nat :=
  (l.find? (fun p => decide (p.1 = h))).map Prod.snd

/-- Processing one left neighbour of the current right node (index `ri`) in
the two-hop discovery. -/
def twoHopLeft (ri : Nat) (st : TwoHop) (left : Handle) : TwoHop :=
  match lookupIdx st.left_idx left with
  | none =>
    { st with left_idx := st.left_idx ++ [(left, st.left_edges.length)],
              left_edges := st.left_edges ++ [[ri]],
              left_nodes := st.left_nodes ++ [left] }
  | some f =>
    { st with left_edges := st.left_edges.set f (st.left_edges.getD f [] ++ [ri]) }

/-- Processing one right neighbour of the center: visit its left
neighbourhood, then append it to `right_nodes`. -/
def twoHopRight (g : BipartiteGraph) (sub : List (Handle × Handle))
    (st : TwoHop) (right : Handle) : TwoHop :=
  let st1 := (subFollow g sub right).foldl (twoHopLeft st.right_nodes.length) st
  { st1 with right_nodes := st1.right_nodes ++ [right] }

/-- The two-hop subgraph around `center` in the subtracted graph. -/
def twoHop (g : BipartiteGraph) (sub : List (Handle × Handle))
    (center : Handle) : TwoHop :=
  (subFollow g sub center).foldl (twoHopRight g sub) ⟨[], [], [], []⟩

/-- One left node in the refinement pass for one right node: look its current
class up in `equiv_mapping`, refining with a fresh class on a miss
(`unordered_map::operator[]` on `left_idx` default-inserts 0 on a miss, hence
the `getD 0`). -/
def refineLeft (left_idx : List (Handle × Nat))
    (st : List Nat × Nat × List (Nat × Nat)) (left : Handle) :
    List Nat × Nat × List (Nat × Nat) :=
  match st with
  | (assign, next, mapping) =>
    let li := (lookupIdx left_idx left).getD 0
    let eq := assign.getD li UMAX
    match mapping.find? (fun p => decide (p.1 = eq)) with
    | some p => (assign.set li p.2, next, mapping)
    | none => (assign.set li next, next + 1, mapping ++ [(eq, next)])

/-- The equivalence-class refinement over all right nodes; `equiv_mapping`
starts fresh for each right node, `next_equiv_class` persists. -/
def refineClasses (g : BipartiteGraph) (sub : List (Handle × Handle))
    (left_idx : List (Handle × Nat)) (rights : List Handle)
    (assign0 : List Nat) : List Nat × Nat :=
  rights.foldl (fun st right =>
    let r := (subFollow g sub right).foldl (refineLeft left_idx)
      (st.1, st.2, [])
    (r.1, r.2.1)) (assign0, 0)

/-- One left node in the compaction pass: classes get compacted identifiers
in first-encounter order, taking their edges and right neighbourhood from the
first member; each member is appended to its class's partition. -/
def compactStep (assign : List Nat) (left_edges : List (List Nat))
    (left_nodes right_nodes : List Handle)
    (st : List Nat × List (List Handle) × List (List Handle) × List (List Nat))
    (i : Nat) :
    List Nat × List (List Handle) × List (List Handle) × List (List Nat) :=
  match st with
  | (compacted, ecs, nbds, ecle) =>
    let eq := assign.getD i UMAX
    if compacted.getD eq UMAX = UMAX then
      let edges := left_edges.getD i []
      (compacted.set eq ecs.length,
       ecs ++ [[left_nodes.getD i dH]],
       nbds ++ [edges.map (fun j => right_nodes.getD j dH)],
       ecle ++ [edges])
    else
      let c := compacted.getD eq UMAX
      (compacted, ecs.set c (ecs.getD c [] ++ [left_nodes.getD i dH]), nbds, ecle)

/-- `degree_groups` (`T_x(k)` in Amilhastre): classes partitioned by right
neighbourhood size. -/
def degreeGroups (nbds : List (List Handle)) (rn : Nat) : List (List Nat) :=
  (List.range nbds.length).foldl (fun dg i =>
    let d := (nbds.getD i []).length
    dg.set d (dg.getD d [] ++ [i])) (List.replicate (rn + 1) [])

/-- `degree_ordered_nbds` (`V(y)` in Amilhastre): each right node's incident
classes in increasing degree order. -/
def degreeOrderedNbds (dg : List (List Nat)) (ecle : List (List Nat))
    (rn : Nat) : List (List Nat) :=
  dg.foldl (fun don grp =>
    grp.foldl (fun don left =>
      (ecle.getD left []).foldl (fun don r =>
        don.set r (don.getD r [] ++ [left])) don) don)
    (List.replicate rn [])

/-- The successor chain along one right node's degree-ordered neighbourhood;
`none` means a successor conflict (the trees' `clear(); return`). -/
def succChain (pred : Nat) (rest : List Nat) (succs : List Nat)
    (preds : List (List Nat)) : Option (List Nat × List (List Nat)) :=
  match rest with
  | [] => some (succs, preds)
  | s :: rest' =>
    if succs.getD pred UMAX = UMAX then
      succChain s rest' (succs.set pred s) (preds.set s (preds.getD s [] ++ [pred]))
    else if succs.getD pred UMAX = s then succChain s rest' succs preds
    else none

/-- The successor/predecessor construction over all right nodes.  An empty
degree-ordered neighbourhood is skipped (the C++ `front()` there would be out
of bounds, but every right node is adjacent to the center's class when the
block's adjacency is symmetric). -/
def succPass (dons : List (List Nat)) (nec rn : Nat) :
    Option (List Nat × List (List Nat)) :=
  (List.range rn).foldl (fun acc i =>
    acc.bind (fun sp =>
      match dons.getD i [] with
      | [] => some sp
      | p :: rest => succChain p rest sp.1 sp.2))
    (some (List.replicate nec UMAX, List.replicate nec []))

/-- The two-pointer containment scan of the neighbour-ordering check: walk
`succ_nbd` advancing a pointer into `pred_nbd` on matches; containment holds
iff the pointer reaches the end. -/
def subChk : List Nat → List Nat → Bool
  | _, [] => true
  | [], _ :: _ => false
  | s :: ss, p :: ps => if s = p then subChk ss ps else subChk ss (p :: ps)

/-- The neighbour-ordering property check over all predecessor edges. -/
def containOK (ecle : List (List Nat)) (preds : List (List Nat)) : Bool :=
  (List.range ecle.length).all (fun i =>
    (preds.getD i []).all (fun j => subChk (ecle.getD i []) (ecle.getD j [])))

/-- `CenteredGaloisTree::CenteredGaloisTree` on the subtracted graph: two-hop
discovery, class refinement, compaction, degree ordering, successor tree
construction and the containment check; any failure yields the cleared
tree. -/
def CenteredGaloisTree (g : BipartiteGraph) (sub : List (Handle × Handle))
    (center : Handle) : CGTree :=
  let th := twoHop g sub center
  let rc := refineClasses g sub th.left_idx th.right_nodes
    (List.replicate th.left_nodes.length UMAX)
  let comp := (List.range th.left_nodes.length).foldl
    (compactStep rc.1 th.left_edges th.left_nodes th.right_nodes)
    (List.replicate rc.2 UMAX, [], [], [])
  let ecs := comp.2.1
  let nbds := comp.2.2.1
  let ecle := comp.2.2.2
  let dg := degreeGroups nbds th.right_nodes.length
  let dons := degreeOrderedNbds dg ecle th.right_nodes.length
  match succPass dons ecs.length th.right_nodes.length with
  | none => CGTree.cleared
  | some (succs, preds) =>
    if containOK ecle preds then ⟨ecs, nbds, succs, preds⟩ else CGTree.cleared

/-- `GaloisLattice`'s data members (the class header is not under src/; the
`biclique_index` key type follows the constructor's local
`pair<int64_t, int64_t>` usage, with `SIZE_MAX` converting to `-1`). -/
structure GaloisLattice where
  galois_trees : List CGTree
  bicliques : List (Int × Int)
  biclique_index : List ((Int × Int) × Nat)
  lattice : List (List Nat)

/-- `GaloisLattice::is_domino_free`. -/
def GaloisLattice.is_domino_free (l : GaloisLattice) : Bool :=
  !l.galois_trees.isEmpty

/-- The tree-building loop of the `GaloisLattice` constructor: `none` means a
tree lacked the neighbour ordering property, so the constructor `clear()`ed
(both members it ever filled by that point become empty). -/
def buildTrees (g : BipartiteGraph) (sub : List (Handle × Handle)) :
    Option (List CGTree) :=
  g.left.foldl (fun acc c =>
    acc.bind (fun ts =>
      let t := CenteredGaloisTree g sub c
      if t.has_neighbor_ordering_property then some (ts ++ [t]) else none))
    (some [])

/-- `unordered_map<pair<int64_t,int64_t>, size_t>::operator[]` read: a miss
default-inserts 0. -/
def biidxGet (m : List ((Int × Int) × Nat)) (k : Int × Int) :
    Nat × List ((Int × Int) × Nat) :=
  match m.find? (fun p => decide (p.1 = k)) with
  | some p => (p.2, m)
  | none => (0, m ++ [(k, 0)])

/-- `operator[]` write (upsert). -/
def biidxSet (m : List ((Int × Int) × Nat)) (k : Int × Int) (v : Nat) :
    List ((Int × Int) × Nat) :=
  if (m.find? (fun p => decide (p.1 = k))).isSome then
    m.map (fun p => if p.1 = k then (k, v) else p)
  else m ++ [(k, v)]

/-- `edge_max_biclique` accessors (`(-1, -1)` is the initial sentinel). -/
def emGet (em : List (List (Int × Int))) (i j : Nat) : Int × Int :=
  (em.getD i []).getD j (-1, -1)

def emSet (em : List (List (Int × Int))) (i j : Nat) (v : Int × Int) :
    List (List (Int × Int)) :=
  em.set i ((em.getD i []).set j v)

/-- `graph.left_iterator(h) - graph.left_begin()`. -/
def leftIndexOf (g : BipartiteGraph) (h : Handle) : Nat :=
  g.left.findIdx (fun x => decide (x = h))

/-- `graph.right_iterator(h) - graph.right_begin()`. -/
def rightIndexOf (g : BipartiteGraph) (h : Handle) : Nat :=
  g.right.findIdx (fun x => decide (x = h))

/-- The mutable state of the lattice-merging loop; `stack` has its top at the
head (C++ `stack.back()`), each frame being a predecessor list with the index
to handle next. -/
structure MergeSt where
  edge_max : List (List (Int × Int))
  bqs : List (Int × Int)
  bidx : List ((Int × Int) × Nat)
  lat : List (List Nat)
  stack : List (List Nat × Nat)

/-- One iteration of the merge loop for tree `i` (algorithm 5 in Amilhastre):
pop a finished frame, or take the frame's next equivalence class, test its
first edge's current maximal biclique, and on an improvement register the
class as a new lattice node, stamp it on the class's edges and push its
predecessors; with a frame below the top, record the lattice edge from that
frame's current class. -/
def mergeIter (g : BipartiteGraph) (trees : List CGTree) (i : Nat)
    (st : MergeSt) : MergeSt :=
  match st.stack with
  | [] => st
  | (frame, cnt) :: rest =>
    if frame.length = cnt then { st with stack := rest }
    else
      let t := trees.getD i CGTree.cleared
      let ec := frame.getD cnt 0
      let stack1 := (frame, cnt + 1) :: rest
      let edgeL := (t.equiv_classes.getD ec []).getD 0 dH
      let edgeR := (t.neighborhoods.getD ec []).getD 0 dH
      let max_so_far := emGet st.edge_max (leftIndexOf g edgeL) (rightIndexOf g edgeR)
      let max_size := if max_so_far.1 = -1 then 0
        else (trees.getD max_so_far.1.toNat CGTree.cleared).right_size max_so_far.2.toNat
      let size_here := t.right_size ec
      let step :=
        if size_here > max_size then
          let msf : Int × Int := (Int.ofNat i, Int.ofNat ec)
          let bidx1 := biidxSet st.bidx msf st.bqs.length
          let em1 := (t.equiv_classes.getD ec []).foldl (fun em l =>
            (t.neighborhoods.getD ec []).foldl (fun em r =>
              emSet em (leftIndexOf g l) (rightIndexOf g r) msf) em) st.edge_max
          (msf, em1, st.bqs ++ [msf], bidx1, st.lat ++ [[]],
           (t.predecessors ec, 0) :: stack1)
        else (max_so_far, st.edge_max, st.bqs, st.bidx, st.lat, stack1)
      match step with
      | (msf, em, bqs, bidx, lat, stack2) =>
        if stack2.length > 1 then
          let pf := stack2.getD 1 ([], 0)
          let r1 := biidxGet bidx (Int.ofNat i, Int.ofNat (pf.1.getD (pf.2 - 1) 0))
          let r2 := biidxGet r1.2 msf
          ⟨em, bqs, r2.2, lat.set r1.1 (lat.getD r1.1 [] ++ [r2.1]), stack2⟩
        else ⟨em, bqs, bidx, lat, stack2⟩

/-- The merge while-loop (fuelled). -/
def mergeLoop (g : BipartiteGraph) (trees : List CGTree) (i : Nat) :
    Nat → MergeSt → Option MergeSt
  | 0, _ => none
  | fuel + 1, st =>
    match st.stack with
    | [] => some st
    | _ :: _ => mergeLoop g trees i fuel (mergeIter g trees i st)

/-- The sink collection and the (vacuous) `is_source` update: `is_source` is
initialised all-`false` and the loop only ever assigns `false`, so no node is
ever a source. -/
def sourceSinkScan (lat : List (List Nat)) (n : Nat) :
    List Bool × List Nat :=
  (List.range n).foldl (fun st i =>
    if (lat.getD i []).isEmpty then (st.1, st.2 ++ [i])
    else ((lat.getD i []).foldl (fun s j => s.set j false) st.1, st.2))
    (List.replicate n false, [])

/-- `GaloisLattice::GaloisLattice`: build the centered trees (clearing on any
failure), merge them, then add the join and meet nodes
(`pair<size_t,size_t>(SIZE_MAX, 0/1)`, i.e. `(-1, 0)` and `(-1, 1)` as
`int64_t` keys).  `none` is a fuel artifact of the merge loop. -/
def GaloisLattice.build (g : BipartiteGraph) (sub : List (Handle × Handle)) :
    Option GaloisLattice :=
  match buildTrees g sub with
  | none => some ⟨[], [], [], []⟩
  | some trees =>
    let em0 := List.replicate g.left.length
      (List.replicate g.right.length ((-1 : Int), (-1 : Int)))
    let fuel := (trees.map (fun t => (t.size + 2) * (t.size + 2))).sum *
      (g.right.length + 2) + 2
    let merged := (List.range trees.length).foldl (fun acc i =>
      acc.bind (fun st =>
        let t := trees.getD i CGTree.cleared
        mergeLoop g trees i fuel
          { st with stack := [([t.central_equivalence_class], 0)] }))
      (some ⟨em0, [], [], [], []⟩)
    merged.map (fun st =>
      let ss := sourceSinkScan st.lat st.bqs.length
      let join : Int × Int := (-1, 0)
      let meet : Int × Int := (-1, 1)
      let bidx1 := biidxSet st.bidx join st.bqs.length
      let bqs1 := st.bqs ++ [join]
      let joinRow := (List.range ss.1.length).filter (fun i => ss.1.getD i false)
      let lat1 := st.lat ++ [joinRow]
      let bidx2 := biidxSet bidx1 meet bqs1.length
      let lat2 := ss.2.foldl (fun l i => l.set i (l.getD i [] ++ [bqs1.length])) lat1
      ⟨trees, bqs1 ++ [meet], bidx2, lat2 ++ [[]]⟩)

/-- Errors of the cover pipeline: `lengthError` is `std::length_error` from a
vector allocation beyond `max_size`; `indexOOB` is an out-of-bounds vector
element access (undefined behaviour in the C++); `fuel` is a model artifact
for the fuelled loops. -/
inductive CoverErr
  | lengthError
  | indexOOB
  | fuel
deriving DecidableEq

/-- `vector<vector<size_t>>::max_size()` on LP64 (x86-64 libstdc++):
`PTRDIFF_MAX / sizeof(vector<size_t>)` = (2^63 - 1) / 24; a larger requested
length throws `std::length_error`. -/
def vecMaxSize : Nat := 384307168202282325

/-- The level-graph construction of one Dinic round: forward edges without
flow, residual (reversed) edges where flow passes, each tagged with its index
in the flow vector. -/
def buildLevelGraph (menger : List (List Nat)) (flow : List Bool) :
    List (List (Nat × Nat)) :=
  ((List.range menger.length).foldl (fun st i =>
    (menger.getD i []).foldl (fun st adj =>
      match st with
      | (lg, eidx) =>
        if flow.getD eidx false = false then
          (lg.set i (lg.getD i [] ++ [(adj, eidx)]), eidx + 1)
        else (lg.set adj (lg.getD adj [] ++ [(i, eidx)]), eidx + 1)) st)
    (List.replicate menger.length ([] : List (Nat × Nat)), 0)).1

/-- The BFS level assignment (fuelled queue loop; `UMAX` = unreached). -/
def bfsLevels (lg : List (List (Nat × Nat))) :
    Nat → List (Nat × Nat) → List Nat → List Nat
  | 0, _, level => level
  | _ + 1, [], level => level
  | f + 1, (node, d) :: rest, level =>
    if level.getD node UMAX > d then
      bfsLevels lg f (rest ++ (lg.getD node []).map (fun a => (a.1, d + 1)))
        (level.set node d)
    else bfsLevels lg f rest level

/-- The cut collection of the breakout branch: level-graph edges crossing the
reachability boundary, in edge-index order of the level graph. -/
def collectCuts (lg : List (List (Nat × Nat))) (level : List Nat) : List Nat :=
  (List.range lg.length).foldl (fun cuts i =>
    (lg.getD i []).foldl (fun cuts e =>
      if (decide (level.getD i UMAX ≠ UMAX) ≠ decide (level.getD e.1 UMAX ≠ UMAX))
      then cuts ++ [e.2] else cuts) cuts) []

/-- The swap-with-back compaction removing one row's non-level-increasing
edges (`edges[j] = edges.back(); --end`, then `resize(end)`). -/
def pruneRow (level : List Nat) (li : Nat) :
    Nat → Nat → Nat → List (Nat × Nat) → List (Nat × Nat)
  | 0, _, e, edges => edges.take e
  | f + 1, j, e, edges =>
    if j < e then
      let adj := edges.getD j (0, 0)
      if level.getD adj.1 UMAX ≤ level.getD li UMAX then
        pruneRow level li f j (e - 1)
          (edges.set j (edges.getD (edges.length - 1) (0, 0)))
      else pruneRow level li f (j + 1) e edges
    else edges.take e

/-- The level pruning over all rows. -/
def pruneLevelGraph (lg : List (List (Nat × Nat))) (level : List Nat) :
    List (List (Nat × Nat)) :=
  (List.range lg.length).foldl (fun lg i =>
    let edges := lg.getD i []
    lg.set i (pruneRow level i (edges.length + 1) 0 edges.length edges)) lg

/-- Flipping the flow along the augmenting path held in the DFS stack: each
non-sink stack node loses its row's back edge, whose flow status flips. -/
def augmentPath (stack : List Nat) (lg : List (List (Nat × Nat)))
    (flow : List Bool) : List (List (Nat × Nat)) × List Bool :=
  stack.reverse.foldl (fun st n =>
    match st with
    | (lg, flow) =>
      let edges := lg.getD n []
      let e := edges.getD (edges.length - 1) (0, 0)
      (lg.set n edges.dropLast, flow.set e.2 (!flow.getD e.2 false))) (lg, flow)

/-- The pruning DFS of one Dinic round (fuelled): augment on reaching the
sink, backtrack (removing the followed edge) at dead ends, otherwise follow a
row's back edge.  The `Bool` is false only on fuel exhaustion. -/
def dfsLoop (source sink : Nat) :
    Nat → List Nat → List (List (Nat × Nat)) → List Bool →
    List (List (Nat × Nat)) × List Bool × Bool
  | 0, _, lg, flow => (lg, flow, false)
  | f + 1, stack, lg, flow =>
    match stack with
    | [] => (lg, flow, true)
    | top :: rest =>
      if top = sink then
        let r := augmentPath rest lg flow
        dfsLoop source sink f [source] r.1 r.2
      else if (lg.getD top []).isEmpty then
        match rest with
        | [] => dfsLoop source sink f [] lg flow
        | p :: _ =>
          dfsLoop source sink f rest (lg.set p (lg.getD p []).dropLast) flow
      else
        let e := (lg.getD top []).getD ((lg.getD top []).length - 1) (0, 0)
        dfsLoop source sink f (e.1 :: top :: rest) lg flow

/-- The translation of cut edge indices back to lattice nodes.  `cut_idx` is
never advanced in the source, so at most slot 0 of the zero-initialised
result is ever written. -/
def translateCuts (menger : List (List Nat)) (source : Nat)
    (cuts : List Nat) : List Nat :=
  (((List.range menger.length).foldl (fun st i =>
    (menger.getD i []).foldl (fun st adj =>
      match st with
      | (rv, eidx, cidx) =>
        if cidx < cuts.length then
          (if eidx = cuts.getD cidx 0 then
            rv.set cidx (if i = source then adj / 2 else i / 2)
          else rv, eidx + 1, cidx)
        else (rv, eidx, cidx)) st)
    (List.replicate cuts.length 0, 0, 0)) : List Nat × Nat × Nat).1

/-- The outer Dinic while-loop (fuelled): build the level graph, BFS; if the
sink is unreached collect and translate the cut, else prune, run the DFS and
repeat. -/
def dinicLoop (menger : List (List Nat)) (source sink : Nat) :
    Nat → List Bool → Except CoverErr (List Nat)
  | 0, _ => .error .fuel
  | f + 1, flow =>
    let lg := buildLevelGraph menger flow
    let n := menger.length
    let level := bfsLevels lg ((n + 2) * (n + 2) * (n + 2) * (n + 2))
      [(source, 0)] (List.replicate n UMAX)
    if level.getD sink UMAX = UMAX then
      .ok (translateCuts menger source (collectCuts lg level))
    else
      let lg2 := pruneLevelGraph lg level
      match dfsLoop source sink ((n + 2) * (n + 2) * (n + 2) * (n + 2))
        [source] lg2 flow with
      | (_, flow2, true) => dinicLoop menger source sink f flow2
      | (_, _, false) => .error .fuel

/-- `GaloisLattice::separator`.  `source`, `sink` and the requested row count
are `size_t` expressions `2*lattice.size() - 2/1` and wrap on an empty
lattice, so the `menger_graph` allocation then throws `length_error`; on any
non-empty lattice `source` equals the row count, so `menger_graph[source]`
is out of bounds (as is `lattice[lattice.size() - 2]` when the size is 1),
reported as `indexOOB` before the flow loop can run. -/
def GaloisLattice.separator (l : GaloisLattice) : Except CoverErr (List Nat) :=
  let L := l.lattice.length
  let source := stSub (stAdd L L) 2
  let sink := stSub (stAdd L L) 1
  let msize := stSub (stAdd L L) 2
  if msize > vecMaxSize then .error .lengthError
  else
    let menger1 := (List.range L).foldl (fun m i =>
      if i + 2 < L then
        let inn := i * 2
        let m1 := m.set inn (m.getD inn [] ++ [inn + 1])
        let row := (l.lattice.getD i []).map (fun j =>
          if j + 1 = L then sink else 2 * j)
        m1.set (inn + 1) (m1.getD (inn + 1) [] ++ row)
      else m) (List.replicate msize ([] : List Nat))
    if stSub L 2 ≥ L then .error .indexOOB
    else if source ≥ msize then .error .indexOOB
    else
      let srcRow := (l.lattice.getD (stSub L 2) []).map (fun j => 2 * j)
      let menger2 := menger1.set source (menger1.getD source [] ++ srcRow)
      let numEdges := (menger2.map List.length).sum
      dinicLoop menger2 source sink (numEdges + 2) (List.replicate numEdges false)

/-- `GaloisLattice::biclique_cover`: convert each separator node to its
maximal biclique through the Galois trees (`getD`/`toNat` model the in-range
vector indexing and the `int64_t`-to-`size_t` conversion). -/
def GaloisLattice.biclique_cover (l : GaloisLattice) :
    Except CoverErr (List Bipartition) := do
  let sep ← l.separator
  pure (sep.map (fun i =>
    let bq := l.bicliques.getD i (-1, -1)
    CGTree.biclique (l.galois_trees.getD bq.1.toNat CGTree.cleared) bq.2.toNat))

/-- `BicliqueCover::domino_free_cover`: simplify, build the lattice on the
simplified graph, and take its biclique cover. -/
def domino_free_cover (g : BipartiteGraph) :
    Except CoverErr (List Bipartition) := do
  match BicliqueCover.simplify g with
  | none => .error .fuel
  | some sub =>
    match GaloisLattice.build g sub with
    | none => .error .fuel
    | some lat => lat.biclique_cover

/-- `BicliqueCover::heuristic_cover`: an unimplemented stub (`// TODO`)
returning the empty vector. -/
def heuristic_cover (_g : BipartiteGraph) : List Bipartition := []

/-- `BicliqueCover::get`: count the edges; at most 2^16 for
`edge_count * (left_size() + right_size())` run the exact domino-free cover,
otherwise keep the empty vector; fall back to the heuristic cover when empty.
The count, the node sum and the guard product are all `size_t` arithmetic and
wrap mod 2^64. -/
def BicliqueCover.get (g : BipartiteGraph) :
    Except CoverErr (List Bipartition) := do
  let edge_count := g.left.foldl (fun acc h => stAdd acc (g.get_degree h)) 0
  let rv ←
    if stMul edge_count (stAdd g.left.length g.right.length) ≤ 65536 then
      domino_free_cover g
    else pure []
  if rv.isEmpty then pure (heuristic_cover g) else pure rv

/-- The complete bipartite block `K_{33,33}`: 1089 edges and 66 nodes, so
`1089 * 66 = 71874 > 2^16` routes `BicliqueCover::get` away from the exact
cover. -/
def K33 : BipartiteGraph :=
  ⟨(List.range 33).map (fun n => ⟨n, false⟩),
   (List.range 33).map (fun n => ⟨n + 33, false⟩),
   fun h =>
     if h.nodeId < 33 then (List.range 33).map (fun n => ⟨n + 33, false⟩)
     else (List.range 33).map (fun n => ⟨n, false⟩)⟩

/-! ## C1 -/

/-- Counterexample to C1: on the over-threshold block `K_{33,33}`,
`BicliqueCover::get` returns the empty cover even though the block has edges
(e.g. node 0 to node 33), so no returned biclique covers them. -/
theorem biclique_cover_get_misses_edges :
    BicliqueCover.get K33 = .ok [] ∧
      (⟨33, false⟩ : Handle) ∈ K33.adj ⟨0, false⟩ :=
  ⟨by rfl, by decide⟩

/-- C1 (amended): every bipartite block whose `size_t` guard product
`edge_count * (left_size() + right_size())` (wrapping mod 2^64, as the source
computes it) exceeds 2^16 skips the exact cover, and since `heuristic_cover`
is an unimplemented stub, `BicliqueCover::get` returns the empty biclique
cover, covering no edge at all. -/
theorem biclique_cover_get_over_threshold (g : BipartiteGraph)
    (h : stMul (g.left.foldl (fun acc x => stAdd acc (g.get_degree x)) 0)
      (stAdd g.left.length g.right.length) > 65536) :
    BicliqueCover.get g = .ok [] := by
  unfold BicliqueCover.get
  rw [if_neg (by omega)]
  rfl

theorem biclique_cover_get_over_threshold_witness :
    stMul (K33.left.foldl (fun acc x => stAdd acc (K33.get_degree x)) 0)
      (stAdd K33.left.length K33.right.length) > 65536 ∧
      BicliqueCover.get K33 = .ok [] :=
  ⟨by decide, biclique_cover_get_over_threshold K33 (by decide)⟩

/-! ## C2 -/

end GetBlunted
